import Mathlib

/-! Fourier–Motzkin elimination: a shallow embedding of `ineq.cpp` and
`fourier_motzkin.cpp`.

The C++ program works on `value_t = double`.  The embedding is given twice.  The
main one takes `value_t` to be `ℚ`: it carries every property that holds "over exact
arithmetic".  The sections `Double` and `Dbl` give the arithmetic of IEEE 754
binary64 and the same solver over it: they carry the runs of the program on which a
property that is stated without that proviso fails.

Conventions of the embedding

* `std::vector<T>` is `List T`; `v[i]` is `v.getD i d` (an out-of-range read is
  undefined behaviour in the source and never happens on well-formed systems).
* A member function that mutates its receiver returns the new receiver.
  `reduce_on` both mutates its receiver and returns a fresh system, so it returns a
  pair `(receiver afterwards, returned system)`.
* `assert`s are not part of the computed result; the section `Checked` repeats the
  solver with every `assert` switched on, and a theorem relates the two.
* `std::numeric_limits<value_t>::lowest()` / `::max()` are the seeds of the running
  maximum / minimum in `get_max` / `get_min`.  On doubles they are the neutral
  elements of `std::max` / `std::min` over all finite values.  `ℚ` has no least or
  greatest element, so over `ℚ` the seed is `none` ("infinity" in the words of the
  comment in `calc_variable`), and `get_max`, `get_min`, `calc_variable`,
  `recover_variables` and `fourier_motzkin` return an `Option`.  In `Dbl` the seed
  is the constant itself.
-/

namespace FourierMotzkin

/-! ## `ineq.hpp` : data model -/

/-- The `enum class Sign`; the numeric values `0, 1, 2` index the array returned
by `partition`. -/
inductive Sign where
  | Zero
  | Positive
  | Negative
deriving DecidableEq, Repr

/-- The class `InequalitySystem::Inequality`: `coeffs · x ≤ rhs`, with the indices of
the inequalities of the previous system it was built from and the factor by which
the inequality has been divided so far. -/
structure Inequality where
  coeffs : List ℚ
  rhs : ℚ
  parents : List Nat
  scaling_factor : ℚ
deriving DecidableEq, Repr

/-- The class `InequalitySystem`: the stored inequalities and the two declared
sizes. -/
structure InequalitySystem where
  ineqs : List Inequality
  num_vars : Nat
  num_ineqs : Nat
deriving DecidableEq, Repr

/-- The `struct certificate` of `fourier_motzkin.hpp`. -/
structure certificate where
  vec : List ℚ
  valid : Bool
deriving DecidableEq, Repr

/-- The four-argument-with-operations form of `std::inner_product`: a left fold
`acc := acc + op2 a b` over the first range, reading the second range in step. -/
def inner_product {α β : Type} (op2 : α → β → ℚ) : List α → List β → ℚ → ℚ
  | a :: as, b :: bs, acc => inner_product op2 as bs (acc + op2 a b)
  | _, _, acc => acc

namespace Inequality

/-- The constructor `Inequality(num_vars, rhs)`: all coefficients zero, no parents,
scaling factor `1`. -/
def fresh (num_vars : Nat) (rhs : ℚ) : Inequality :=
  ⟨List.replicate num_vars 0, rhs, [], 1⟩

instance : Inhabited Inequality := ⟨fresh 0 0⟩

/-- The member `num_vars()`. -/
def num_vars (q : Inequality) : Nat := q.coeffs.length

/-- The constructor `Inequality(ineq, index, without)`: copy every coefficient
except the one at position `without`; the only parent is `index`. -/
def drop_one (ineq : Inequality) (index without : Nat) : Inequality :=
  ⟨ineq.coeffs.eraseIdx without, ineq.rhs, [index], 1⟩

/-- The constructor `Inequality(ineq1, index1, ineq2, index2, without)`: the
coordinate-wise sum of the two inequalities except position `without`; the
parents are `index1, index2`.  (The loop runs over `ineq1.num_vars()` and reads
`ineq2._coeffs[i]`, so `ineq2` has at least as many coefficients as `ineq1`.) -/
def combine (ineq1 : Inequality) (index1 : Nat) (ineq2 : Inequality) (index2 : Nat)
    (without : Nat) : Inequality :=
  ⟨(List.zipWith (· + ·) ineq1.coeffs ineq2.coeffs).eraseIdx without,
   ineq1.rhs + ineq2.rhs, [index1, index2], 1⟩

/-- The member `evaluate_lhs(vars)`. -/
def evaluate_lhs (q : Inequality) (vars : List ℚ) : ℚ :=
  inner_product (· * ·) q.coeffs vars 0

/-- The member `is_valid(vars)`: `evaluate_lhs(vars) <= rhs`. -/
def is_valid (q : Inequality) (vars : List ℚ) : Bool :=
  decide (q.evaluate_lhs vars ≤ q.rhs)

/-- The member `scale(scalar)`. -/
def scale (q : Inequality) (scalar : ℚ) : Inequality :=
  { q with
    coeffs := q.coeffs.map (fun coeff => coeff * scalar)
    rhs := q.rhs * scalar
    scaling_factor := q.scaling_factor / scalar }

/-- The member `get_sign(index)`. -/
def get_sign (q : Inequality) (index : Nat) : Sign :=
  if q.coeffs.getD index 0 = 0 then Sign.Zero
  else if q.coeffs.getD index 0 > 0 then Sign.Positive
  else Sign.Negative

/-- The member `normalize_on(index)`. -/
def normalize_on (q : Inequality) (index : Nat) : Inequality :=
  q.scale (1 / |q.coeffs.getD index 0|)

end Inequality

namespace InequalitySystem

/-- The constructor `InequalitySystem(num_vars, num_ineqs)`: nothing stored yet. -/
def empty (num_vars num_ineqs : Nat) : InequalitySystem := ⟨[], num_vars, num_ineqs⟩

instance : Inhabited InequalitySystem := ⟨empty 0 0⟩

/-- The read `_ineqs[i]`. -/
def ineq (s : InequalitySystem) (i : Nat) : Inequality := s.ineqs.getD i default

/-- The member `partition(index)`: for each sign the indices, in ascending order,
of the inequalities whose coefficient at `index` has that sign. -/
def partition (s : InequalitySystem) (index : Nat) (sign : Sign) : List Nat :=
  (List.range s.ineqs.length).filter (fun i => (s.ineq i).get_sign index = sign)

/-- The loop `for (auto i : part[sign]) _ineqs[i].normalize_on(index);`. -/
def normalize_all (index : Nat) (idxs : List Nat) (ineqs : List Inequality) :
    List Inequality :=
  idxs.foldl (fun acc i => acc.modify (fun q => q.normalize_on index) i) ineqs

/-- The receiver of `reduce_on(index)` after its normalization loops. -/
def normalized (s : InequalitySystem) (index : Nat) : InequalitySystem :=
  { s with
    ineqs := normalize_all index (s.partition index Sign.Negative)
               (normalize_all index (s.partition index Sign.Positive) s.ineqs) }

/-- The member `reduce_on(index)`: the receiver afterwards and the returned system.
The source asserts `_num_vars > 0` before it computes `_num_vars - 1`; every call
made by `reduce_system` satisfies the assertion. -/
def reduce_on (s : InequalitySystem) (index : Nat) : InequalitySystem × InequalitySystem :=
  let part := s.partition index
  let self := s.normalized index
  let num_ineqs :=
    (part Sign.Zero).length + (part Sign.Positive).length * (part Sign.Negative).length
  let combined := (part Sign.Positive).flatMap fun pos =>
    (part Sign.Negative).map fun neg =>
      Inequality.combine (self.ineq pos) pos (self.ineq neg) neg index
  let carried := (part Sign.Zero).map fun z =>
    Inequality.drop_one (self.ineq z) z index
  (self, ⟨combined ++ carried, s.num_vars - 1, num_ineqs⟩)

/-- The member `is_valid(vars)`. -/
def is_valid (s : InequalitySystem) (vars : List ℚ) : Bool :=
  s.ineqs.all fun q => q.is_valid vars

/-- One step of the running maximum / minimum: `none` is the seed. -/
def step_with (op : ℚ → ℚ → ℚ) (acc : Option ℚ) (v : ℚ) : Option ℚ :=
  match acc with
  | none => some v
  | some a => some (op a v)

/-- The member `get_max(to_eval, vars)`. -/
def get_max (s : InequalitySystem) (to_eval : List Nat) (vars : List ℚ) : Option ℚ :=
  to_eval.foldl
    (fun acc i => step_with max acc ((s.ineq i).evaluate_lhs vars - (s.ineq i).rhs)) none

/-- The member `get_min(to_eval, vars)`. -/
def get_min (s : InequalitySystem) (to_eval : List Nat) (vars : List ℚ) : Option ℚ :=
  to_eval.foldl
    (fun acc i => step_with min acc ((s.ineq i).rhs - (s.ineq i).evaluate_lhs vars)) none

/-- The member `calc_variable(index, known_vars)`. -/
def calc_variable (s : InequalitySystem) (index : Nat) (known_vars : List ℚ) : Option ℚ :=
  let part := s.partition index
  if (part Sign.Positive).length + (part Sign.Negative).length = 0 then some 0
  else if (part Sign.Positive).length > (part Sign.Negative).length then
    s.get_min (part Sign.Positive) known_vars
  else
    s.get_max (part Sign.Negative) known_vars

/-- The member `find_invalid(vars)`: the position of the first violated inequality
(`_ineqs.size()` when there is none, where the source asserts). -/
def find_invalid (s : InequalitySystem) (vars : List ℚ) : Nat :=
  s.ineqs.findIdx fun q => !q.is_valid vars

/-- The member `get_parents(index)`. -/
def get_parents (s : InequalitySystem) (index : Nat) : List Nat := (s.ineq index).parents

/-- The member `get_scaling_factor(index)`. -/
def get_scaling_factor (s : InequalitySystem) (index : Nat) : ℚ :=
  (s.ineq index).scaling_factor

/-- The member `check_counterexample(counterexample)`. -/
def check_counterexample (s : InequalitySystem) (counterexample : List ℚ) : Bool :=
  let inner_prod := inner_product (fun q val => q.rhs * val) s.ineqs counterexample 0
  let matrix_is_zero := (List.range s.num_vars).all fun j =>
    decide (inner_product (fun q val => q.coeffs.getD j 0 * val) s.ineqs counterexample 0 = 0)
  decide (inner_prod < 0) && matrix_is_zero

end InequalitySystem

/-! ## `fourier_motzkin.cpp` : the driver and the two backward passes -/

/-- The loop of `reduce_system`: `done ++ [back]` is the vector `ret`, `i` the loop
counter.  `ret.back().reduce_on(i - 1)` rescales `back` in place and the returned
system is appended. -/
def reduce_loop : Nat → List InequalitySystem → InequalitySystem → List InequalitySystem
  | 0, done, back => done ++ [back]
  | i + 1, done, back =>
    reduce_loop i (done ++ [(back.reduce_on i).1]) (back.reduce_on i).2

/-- The function `reduce_system(sys)`. -/
def reduce_system (sys : InequalitySystem) : List InequalitySystem :=
  reduce_loop sys.num_vars [] sys

/-- The function `compute_parents(sys, parents, length)`. -/
def compute_parents (sys : InequalitySystem) (parents : List ℚ) (length : Nat) : List ℚ :=
  (List.range parents.length).foldl
    (fun ret p =>
      (sys.get_parents p).foldl
        (fun ret np =>
          ret.modify (fun r => r + parents.getD p 0 / sys.get_scaling_factor p) np)
        ret)
    (List.replicate length 0)

/-- The loop of `compute_counter_example`, on the reversed chain: `it` is the head,
`std::next(it)` the element after it. -/
def counter_example_loop : List InequalitySystem → List ℚ → List ℚ
  | it :: next :: rest, parents =>
    counter_example_loop (next :: rest) (compute_parents it parents next.num_ineqs)
  | _, parents => parents

/-- The function `compute_counter_example(steps)`. -/
def compute_counter_example (steps : List InequalitySystem) : List ℚ :=
  let back := steps.getLastD default
  let parents := (List.replicate back.num_ineqs (0 : ℚ)).modify (fun r => r + 1)
    (back.find_invalid [])
  counter_example_loop steps.reverse parents

/-- The loop of `recover_variables`; the first argument is the loop counter `i`. -/
def recover_loop (steps : List InequalitySystem) (num_vars : Nat) :
    Nat → List ℚ → Option (List ℚ)
  | 0, ret => some ret
  | i + 1, ret =>
    match (steps.getD i default).calc_variable (num_vars - (i + 1)) (ret ++ [0]) with
    | none => none
    | some v => recover_loop steps num_vars i (ret ++ [v])

/-- The function `recover_variables(steps)`. -/
def recover_variables (steps : List InequalitySystem) : Option (List ℚ) :=
  recover_loop steps (steps.headD default).num_vars (steps.length - 1) []

/-- The function `fourier_motzkin`, from the system that `read_file` returns. -/
def fourier_motzkin (sys : InequalitySystem) : Option certificate :=
  let steps := reduce_system sys
  if !(steps.getLastD default).is_valid [] then
    some ⟨compute_counter_example steps, false⟩
  else
    (recover_variables steps).map fun vec => ⟨vec, true⟩

/-! ## Well-formedness -/

/-- Every stored inequality has `num_vars` coefficients and the declared number of
inequalities is the number stored. -/
def WellFormed (s : InequalitySystem) : Prop :=
  (∀ q ∈ s.ineqs, q.coeffs.length = s.num_vars) ∧ s.num_ineqs = s.ineqs.length

instance (s : InequalitySystem) : Decidable (WellFormed s) := by
  unfold WellFormed; infer_instance

/-! ## Auxiliary notions used in the statements and proofs -/

/-- The exact value of `std::inner_product(c.begin(), c.end(), x.begin(), 0)`. -/
def dot (c x : List ℚ) : ℚ := (List.zipWith (· * ·) c x).sum

/-- What the normalization loops of `reduce_on(index)` do to one stored inequality:
nothing when its coefficient at `index` is zero, `normalize_on(index)` otherwise. -/
def norm_ineq (index : Nat) (q : Inequality) : Inequality :=
  if q.get_sign index = Sign.Zero then q else q.normalize_on index

/-- The chain that `reduce_system` builds from a system with `i` declared variables:
the head is rescaled in place by the elimination step that consumes it. -/
def chain : Nat → InequalitySystem → List InequalitySystem
  | 0, s => [s]
  | i + 1, s => (s.reduce_on i).1 :: chain i (s.reduce_on i).2

/-- The last system of `chain i s`, before anything is rescaled in it. -/
def terminal : Nat → InequalitySystem → InequalitySystem
  | 0, s => s
  | i + 1, s => terminal i (s.reduce_on i).2

/-- The weighted sum `Σ_i a_i · y_i` of the values `a_i` attached to the stored
inequalities. -/
def wsum (a y : List ℚ) : ℚ := (List.zipWith (· * ·) a y).sum

/-- The head of `chain i s`: the system `s` as it is stored in the chain. -/
def stored : Nat → InequalitySystem → InequalitySystem
  | 0, s => s
  | i + 1, s => s.normalized i

/-- The two conditions that `check_counterexample` tests, as sums:
`Σ_i y_i · rhs_i < 0` and `Σ_i y_i · coeffs_i[j] = 0` for every column `j`. -/
def Farkas (s : InequalitySystem) (y : List ℚ) : Prop :=
  wsum (s.ineqs.map fun q => q.rhs) y < 0 ∧
    ∀ j, j < s.num_vars → wsum (s.ineqs.map fun q => q.coeffs.getD j 0) y = 0

/-- Provenance of the system `child` built by eliminating the variable `k` from
`par`: every parent index is in range, every scaling factor is positive, and each
child inequality is the sum of its parents divided by its scaling factor (the
parents' coefficients at `k` cancel). -/
def Prov (par child : InequalitySystem) (k : Nat) : Prop :=
  ∀ q ∈ child.ineqs,
    (∀ np ∈ q.parents, np < par.ineqs.length) ∧
    0 < q.scaling_factor ∧
    q.rhs = (q.parents.map fun np => (par.ineq np).rhs).sum / q.scaling_factor ∧
    (∀ j, j < k → q.coeffs.getD j 0 =
      (q.parents.map fun np => (par.ineq np).coeffs.getD j 0).sum / q.scaling_factor) ∧
    (q.parents.map fun np => (par.ineq np).coeffs.getD k 0).sum = 0

/-- The left-hand side of the stored inequality `i` at `x` with the coordinate `k`
of the inequality left out. -/
def rest (s : InequalitySystem) (k : Nat) (x : List ℚ) (i : Nat) : ℚ :=
  dot ((s.ineq i).coeffs.eraseIdx k) x

/-- The seed of `compute_counter_example`: weight one on the inequality that
`find_invalid()` returns. -/
def seed (back : InequalitySystem) : List ℚ :=
  (List.replicate back.num_ineqs (0 : ℚ)).modify (fun r => r + 1) (back.find_invalid [])

/-! ## Reference definition of `calc_variable` -/

/-- Element `i` of `chain n s` as it was when it was appended to the chain, before the
following elimination step rescaled it in place. -/
def created : Nat → InequalitySystem → Nat → InequalitySystem
  | _, s, 0 => s
  | 0, s, _ + 1 => s
  | n + 1, s, i + 1 => created n (s.reduce_on n).2 i

/-! ## The solver with its `assert`s switched on

Every function of this section returns `none` when an `assert` of the source fails
during the call, and otherwise `some` of what the function of the same name above
returns.  (`compute_parents` has no `assert`; `check_counterexample` has one but the
solver never calls it.) -/

namespace Checked

/-- The member `Inequality::evaluate_lhs`, with
`assert(vars.size() == num_vars())`. -/
def evaluate_lhs (q : Inequality) (vars : List ℚ) : Option ℚ :=
  if vars.length = q.num_vars then some (inner_product (· * ·) q.coeffs vars 0) else none

/-- The member `Inequality::is_valid`. -/
def is_valid (q : Inequality) (vars : List ℚ) : Option Bool :=
  (evaluate_lhs q vars).map fun lhs => decide (lhs ≤ q.rhs)

/-- The member `Inequality::scale`, with `assert(scalar > 0)`. -/
def scale (q : Inequality) (scalar : ℚ) : Option Inequality :=
  if scalar > 0 then some (q.scale scalar) else none

/-- The member `Inequality::normalize_on`. -/
def normalize_on (q : Inequality) (index : Nat) : Option Inequality :=
  scale q (1 / |q.coeffs.getD index 0|)

/-- The loop `for (auto i : part[sign]) _ineqs[i].normalize_on(index);`. -/
def normalize_all (index : Nat) : List Nat → List Inequality → Option (List Inequality)
  | [], ineqs => some ineqs
  | i :: idxs, ineqs =>
    (normalize_on (ineqs.getD i default) index).bind fun q =>
      normalize_all index idxs (ineqs.set i q)

/-- The member `InequalitySystem::reduce_on`, with `assert(_num_vars > 0)` and, after
each `emplace_back`, `assert(ret._ineqs.back().num_vars() == ret.num_vars())`. -/
def reduce_on (s : InequalitySystem) (index : Nat) :
    Option (InequalitySystem × InequalitySystem) :=
  if s.num_vars > 0 then
    (normalize_all index (s.partition index Sign.Positive) s.ineqs).bind fun l1 =>
    (normalize_all index (s.partition index Sign.Negative) l1).bind fun l2 =>
      let part := s.partition index
      let self : InequalitySystem := { s with ineqs := l2 }
      let num_ineqs :=
        (part Sign.Zero).length + (part Sign.Positive).length * (part Sign.Negative).length
      let combined := (part Sign.Positive).flatMap fun pos =>
        (part Sign.Negative).map fun neg =>
          Inequality.combine (self.ineq pos) pos (self.ineq neg) neg index
      let carried := (part Sign.Zero).map fun z =>
        Inequality.drop_one (self.ineq z) z index
      if (combined ++ carried).all fun q => decide (q.num_vars = s.num_vars - 1) then
        some (self, ⟨combined ++ carried, s.num_vars - 1, num_ineqs⟩)
      else none
  else none

/-- The `std::all_of` of `InequalitySystem::is_valid`: it stops at the first
inequality that is not valid. -/
def all_valid : List Inequality → List ℚ → Option Bool
  | [], _ => some true
  | q :: qs, vars =>
    (is_valid q vars).bind fun b => if b then all_valid qs vars else some false

/-- The member `InequalitySystem::is_valid`. -/
def sys_is_valid (s : InequalitySystem) (vars : List ℚ) : Option Bool :=
  all_valid s.ineqs vars

/-- The `std::find_if` of `find_invalid` from position `i` on, with
`assert(it != _ineqs.end())`. -/
def find_from : List Inequality → List ℚ → Nat → Option Nat
  | [], _, _ => none
  | q :: qs, vars, i =>
    (is_valid q vars).bind fun b => if !b then some i else find_from qs vars (i + 1)

/-- The member `InequalitySystem::find_invalid`. -/
def find_invalid (s : InequalitySystem) (vars : List ℚ) : Option Nat :=
  find_from s.ineqs vars 0

/-- The member `InequalitySystem::get_max`. -/
def get_max (s : InequalitySystem) (to_eval : List Nat) (vars : List ℚ) :
    Option (Option ℚ) :=
  to_eval.foldl
    (fun acc i => acc.bind fun m =>
      (evaluate_lhs (s.ineq i) vars).map fun lhs => InequalitySystem.step_with max m (lhs - (s.ineq i).rhs))
    (some none)

/-- The member `InequalitySystem::get_min`. -/
def get_min (s : InequalitySystem) (to_eval : List Nat) (vars : List ℚ) :
    Option (Option ℚ) :=
  to_eval.foldl
    (fun acc i => acc.bind fun m =>
      (evaluate_lhs (s.ineq i) vars).map fun lhs => InequalitySystem.step_with min m ((s.ineq i).rhs - lhs))
    (some none)

/-- The member `InequalitySystem::calc_variable`. -/
def calc_variable (s : InequalitySystem) (index : Nat) (known_vars : List ℚ) :
    Option (Option ℚ) :=
  let part := s.partition index
  if (part Sign.Positive).length + (part Sign.Negative).length = 0 then some (some 0)
  else if (part Sign.Positive).length > (part Sign.Negative).length then
    get_min s (part Sign.Positive) known_vars
  else
    get_max s (part Sign.Negative) known_vars

/-- The loop of `reduce_system`. -/
def reduce_loop :
    Nat → List InequalitySystem → InequalitySystem → Option (List InequalitySystem)
  | 0, done, back => some (done ++ [back])
  | i + 1, done, back =>
    (reduce_on back i).bind fun r => reduce_loop i (done ++ [r.1]) r.2

/-- The function `reduce_system`. -/
def reduce_system (sys : InequalitySystem) : Option (List InequalitySystem) :=
  reduce_loop sys.num_vars [] sys

/-- The function `compute_counter_example`. -/
def compute_counter_example (steps : List InequalitySystem) : Option (List ℚ) :=
  (find_invalid (steps.getLastD default) []).map fun idx =>
    counter_example_loop steps.reverse
      ((List.replicate (steps.getLastD default).num_ineqs (0 : ℚ)).modify
        (fun r => r + 1) idx)

/-- The loop of `recover_variables`. -/
def recover_loop (steps : List InequalitySystem) (num_vars : Nat) :
    Nat → List ℚ → Option (Option (List ℚ))
  | 0, ret => some (some ret)
  | i + 1, ret =>
    (calc_variable (steps.getD i default) (num_vars - (i + 1)) (ret ++ [0])).bind fun r =>
      match r with
      | none => some none
      | some v => recover_loop steps num_vars i (ret ++ [v])

/-- The function `recover_variables`, with `assert(steps.front().is_valid(ret))`. -/
def recover_variables (steps : List InequalitySystem) : Option (Option (List ℚ)) :=
  (recover_loop steps (steps.headD default).num_vars (steps.length - 1) []).bind fun r =>
    match r with
    | none => some none
    | some ret =>
      (sys_is_valid (steps.headD default) ret).bind fun b =>
        if b then some (some ret) else none

/-- The function `fourier_motzkin`, with `assert(steps.back().num_vars() == 0)`. -/
def fourier_motzkin (sys : InequalitySystem) : Option (Option certificate) :=
  (reduce_system sys).bind fun steps =>
    if (steps.getLastD default).num_vars = 0 then
      (sys_is_valid (steps.getLastD default) []).bind fun valid =>
        if !valid then
          (compute_counter_example steps).map fun vec => some ⟨vec, false⟩
        else
          (recover_variables steps).map fun r => r.map fun vec => ⟨vec, true⟩
    else none

end Checked

/-! ## IEEE 754 binary64 arithmetic

`value_t` is `double`.  A property that is not stated "over exact arithmetic" is
about the values the program computes, so this section gives the arithmetic of
`double` (round to nearest, ties to even, with overflow to an infinity, gradual
underflow, signed zeros and NaN) and the next one repeats the solver over it. -/

/-- A `double`: NaN, an infinity with its sign, or a finite value with its sign bit
(`neg`) and its magnitude, a rational that binary64 represents exactly. -/
inductive Double where
  | nan
  | inf (neg : Bool)
  | fin (neg : Bool) (mag : ℚ)
deriving DecidableEq, Repr

namespace Double

/-- The power `2^e`. -/
def pow2 (e : Int) : ℚ :=
  if 0 ≤ e then ((2 ^ e.toNat : Nat) : ℚ) else 1 / ((2 ^ (-e).toNat : Nat) : ℚ)

/-- The loop of `log2`: halve `n` until it is below `2`, at most `fuel` times. -/
def log2_loop : Nat → Nat → Nat
  | 0, _ => 0
  | fuel + 1, n => if 2 ≤ n then log2_loop fuel (n / 2) + 1 else 0

/-- The number `⌊log₂ n⌋` of a natural number `n ≥ 1`. -/
def log2 (n : Nat) : Nat := log2_loop n n

/-- The exponent `⌊log₂ q⌋` of a positive rational. -/
def ilog2 (q : ℚ) : Int :=
  if pow2 ((log2 q.num.toNat : Int) - (log2 q.den : Int)) ≤ q then
    (log2 q.num.toNat : Int) - (log2 q.den : Int)
  else (log2 q.num.toNat : Int) - (log2 q.den : Int) - 1

/-- Rounding of a magnitude `q ≥ 0` to the nearest binary64 magnitude, ties to even:
53 significant bits, least exponent `-1022` (below it the spacing stays `2^-1074`);
`none` when the result is `2^1024` or more (overflow). -/
def round_mag (q : ℚ) : Option ℚ :=
  if q = 0 then some 0
  else
    let ulp := pow2 (max (ilog2 q) (-1022) - 52)
    let n := q / ulp
    let f : Nat := n.num.toNat / n.den
    let r := n - (f : ℚ)
    let m : Nat :=
      if r < 1 / 2 then f
      else if 1 / 2 < r then f + 1
      else if f % 2 = 0 then f else f + 1
    if pow2 1024 ≤ (m : ℚ) * ulp then none else some ((m : ℚ) * ulp)

/-- The `double` nearest to `±q`, for a magnitude `q ≥ 0`. -/
def round (neg : Bool) (q : ℚ) : Double :=
  match round_mag q with
  | none => inf neg
  | some v => fin neg v

/-- The value of a finite `double` with sign bit `neg` and magnitude `mag`. -/
def signed (neg : Bool) (mag : ℚ) : ℚ := if neg then -mag else mag

/-- The constant `0`, also `value_t{}`. -/
def zero : Double := fin false 0

/-- The constant `1`. -/
def one : Double := fin false 1

/-- The constant `std::numeric_limits<double>::max()`. -/
def max_value : Double := fin false (pow2 1024 - pow2 971)

/-- The constant `std::numeric_limits<double>::lowest()`. -/
def lowest : Double := fin true (pow2 1024 - pow2 971)

/-- Unary minus. -/
def neg : Double → Double
  | nan => nan
  | inf a => inf (!a)
  | fin a x => fin (!a) x

/-- The function `std::abs`. -/
def abs : Double → Double
  | nan => nan
  | inf _ => inf false
  | fin _ x => fin false x

/-- The operator `+`. -/
def add : Double → Double → Double
  | nan, _ => nan
  | _, nan => nan
  | inf a, inf b => if a = b then inf a else nan
  | inf a, fin _ _ => inf a
  | fin _ _, inf b => inf b
  | fin a x, fin b y =>
    if signed a x + signed b y = 0 then fin (a && b) 0
    else round (decide (signed a x + signed b y < 0)) |signed a x + signed b y|

/-- The operator `-`. -/
def sub (a b : Double) : Double := add a (neg b)

/-- The operator `*`. -/
def mul : Double → Double → Double
  | nan, _ => nan
  | _, nan => nan
  | inf a, inf b => inf (xor a b)
  | inf a, fin b y => if y = 0 then nan else inf (xor a b)
  | fin a x, inf b => if x = 0 then nan else inf (xor a b)
  | fin a x, fin b y => round (xor a b) (x * y)

/-- The operator `/`. -/
def div : Double → Double → Double
  | nan, _ => nan
  | _, nan => nan
  | inf _, inf _ => nan
  | inf a, fin b _ => inf (xor a b)
  | fin a _, inf b => fin (xor a b) 0
  | fin a x, fin b y =>
    if y = 0 then (if x = 0 then nan else inf (xor a b))
    else round (xor a b) (x / y)

/-- The operator `<`. -/
def lt : Double → Double → Bool
  | nan, _ => false
  | _, nan => false
  | inf a, inf b => a && !b
  | inf a, fin _ _ => a
  | fin _ _, inf b => !b
  | fin a x, fin b y => decide (signed a x < signed b y)

/-- The operator `<=`, also `std::less_equal`. -/
def le : Double → Double → Bool
  | nan, _ => false
  | _, nan => false
  | inf a, inf b => a || !b
  | inf a, fin _ _ => a
  | fin _ _, inf b => !b
  | fin a x, fin b y => decide (signed a x ≤ signed b y)

/-- The operator `==`. -/
def eq : Double → Double → Bool
  | nan, _ => false
  | _, nan => false
  | inf a, inf b => a == b
  | inf _, fin _ _ => false
  | fin _ _, inf _ => false
  | fin a x, fin b y => decide (signed a x = signed b y)

/-- The operator `>`. -/
def gt (a b : Double) : Bool := lt b a

/-- The function `std::max(a, b)`: `(a < b) ? b : a`. -/
def max (a b : Double) : Double := if lt a b then b else a

/-- The function `std::min(a, b)`: `(b < a) ? b : a`. -/
def min (a b : Double) : Double := if lt b a then b else a

end Double

/-! ## The solver over `double`

The same functions of `ineq.cpp` and `fourier_motzkin.cpp` as above, with `value_t`
the type `Double` and every operator the operator of `double`.  The running maximum
and minimum start from the constants `lowest()` and `max()` themselves. -/

namespace Dbl

/-- The class `InequalitySystem::Inequality`. -/
structure Inequality where
  coeffs : List Double
  rhs : Double
  parents : List Nat
  scaling_factor : Double
deriving DecidableEq, Repr

/-- The class `InequalitySystem`. -/
structure InequalitySystem where
  ineqs : List Inequality
  num_vars : Nat
  num_ineqs : Nat
deriving DecidableEq, Repr

/-- The `struct certificate`. -/
structure certificate where
  vec : List Double
  valid : Bool
deriving DecidableEq, Repr

/-- The function `std::inner_product` with operations: `acc = acc + op2(a, b)`, from
left to right. -/
def inner_product {α β : Type} (op2 : α → β → Double) : List α → List β → Double → Double
  | a :: as, b :: bs, acc => inner_product op2 as bs (Double.add acc (op2 a b))
  | _, _, acc => acc

namespace Inequality

/-- The constructor `Inequality(num_vars, rhs)`. -/
def fresh (num_vars : Nat) (rhs : Double) : Inequality :=
  ⟨List.replicate num_vars Double.zero, rhs, [], Double.one⟩

instance : Inhabited Inequality := ⟨fresh 0 Double.zero⟩

/-- The member `num_vars()`. -/
def num_vars (q : Inequality) : Nat := q.coeffs.length

/-- The constructor `Inequality(ineq, index, without)`. -/
def drop_one (ineq : Inequality) (index without : Nat) : Inequality :=
  ⟨ineq.coeffs.eraseIdx without, ineq.rhs, [index], Double.one⟩

/-- The constructor `Inequality(ineq1, index1, ineq2, index2, without)`. -/
def combine (ineq1 : Inequality) (index1 : Nat) (ineq2 : Inequality) (index2 : Nat)
    (without : Nat) : Inequality :=
  ⟨(List.zipWith Double.add ineq1.coeffs ineq2.coeffs).eraseIdx without,
   Double.add ineq1.rhs ineq2.rhs, [index1, index2], Double.one⟩

/-- The member `evaluate_lhs(vars)`. -/
def evaluate_lhs (q : Inequality) (vars : List Double) : Double :=
  inner_product Double.mul q.coeffs vars Double.zero

/-- The member `is_valid(vars)`. -/
def is_valid (q : Inequality) (vars : List Double) : Bool :=
  Double.le (q.evaluate_lhs vars) q.rhs

/-- The member `scale(scalar)`. -/
def scale (q : Inequality) (scalar : Double) : Inequality :=
  { q with
    coeffs := q.coeffs.map (fun coeff => Double.mul coeff scalar)
    rhs := Double.mul q.rhs scalar
    scaling_factor := Double.div q.scaling_factor scalar }

/-- The member `get_sign(index)`. -/
def get_sign (q : Inequality) (index : Nat) : Sign :=
  if Double.eq (q.coeffs.getD index Double.zero) Double.zero then Sign.Zero
  else if Double.gt (q.coeffs.getD index Double.zero) Double.zero then Sign.Positive
  else Sign.Negative

/-- The member `normalize_on(index)`. -/
def normalize_on (q : Inequality) (index : Nat) : Inequality :=
  q.scale (Double.div Double.one (Double.abs (q.coeffs.getD index Double.zero)))

end Inequality

namespace InequalitySystem

instance : Inhabited InequalitySystem := ⟨⟨[], 0, 0⟩⟩

/-- The read `_ineqs[i]`. -/
def ineq (s : InequalitySystem) (i : Nat) : Inequality := s.ineqs.getD i default

/-- The member `partition(index)`. -/
def partition (s : InequalitySystem) (index : Nat) (sign : Sign) : List Nat :=
  (List.range s.ineqs.length).filter (fun i => (s.ineq i).get_sign index = sign)

/-- The loop `for (auto i : part[sign]) _ineqs[i].normalize_on(index);`. -/
def normalize_all (index : Nat) (idxs : List Nat) (ineqs : List Inequality) :
    List Inequality :=
  idxs.foldl (fun acc i => acc.modify (fun q => q.normalize_on index) i) ineqs

/-- The receiver of `reduce_on(index)` after its normalization loops. -/
def normalized (s : InequalitySystem) (index : Nat) : InequalitySystem :=
  { s with
    ineqs := normalize_all index (s.partition index Sign.Negative)
               (normalize_all index (s.partition index Sign.Positive) s.ineqs) }

/-- The member `reduce_on(index)`: the receiver afterwards and the returned system. -/
def reduce_on (s : InequalitySystem) (index : Nat) : InequalitySystem × InequalitySystem :=
  let part := s.partition index
  let self := s.normalized index
  let num_ineqs :=
    (part Sign.Zero).length + (part Sign.Positive).length * (part Sign.Negative).length
  let combined := (part Sign.Positive).flatMap fun pos =>
    (part Sign.Negative).map fun neg =>
      Inequality.combine (self.ineq pos) pos (self.ineq neg) neg index
  let carried := (part Sign.Zero).map fun z =>
    Inequality.drop_one (self.ineq z) z index
  (self, ⟨combined ++ carried, s.num_vars - 1, num_ineqs⟩)

/-- The member `is_valid(vars)`. -/
def is_valid (s : InequalitySystem) (vars : List Double) : Bool :=
  s.ineqs.all fun q => q.is_valid vars

/-- The member `get_max(to_eval, vars)`. -/
def get_max (s : InequalitySystem) (to_eval : List Nat) (vars : List Double) : Double :=
  to_eval.foldl
    (fun m i => Double.max m (Double.sub ((s.ineq i).evaluate_lhs vars) (s.ineq i).rhs))
    Double.lowest

/-- The member `get_min(to_eval, vars)`. -/
def get_min (s : InequalitySystem) (to_eval : List Nat) (vars : List Double) : Double :=
  to_eval.foldl
    (fun m i => Double.min m (Double.sub (s.ineq i).rhs ((s.ineq i).evaluate_lhs vars)))
    Double.max_value

/-- The member `calc_variable(index, known_vars)`. -/
def calc_variable (s : InequalitySystem) (index : Nat) (known_vars : List Double) : Double :=
  let part := s.partition index
  if (part Sign.Positive).length + (part Sign.Negative).length = 0 then Double.zero
  else if (part Sign.Positive).length > (part Sign.Negative).length then
    s.get_min (part Sign.Positive) known_vars
  else
    s.get_max (part Sign.Negative) known_vars

/-- The member `find_invalid(vars)`. -/
def find_invalid (s : InequalitySystem) (vars : List Double) : Nat :=
  s.ineqs.findIdx fun q => !q.is_valid vars

/-- The member `get_parents(index)`. -/
def get_parents (s : InequalitySystem) (index : Nat) : List Nat := (s.ineq index).parents

/-- The member `get_scaling_factor(index)`. -/
def get_scaling_factor (s : InequalitySystem) (index : Nat) : Double :=
  (s.ineq index).scaling_factor

/-- The member `check_counterexample(counterexample)`. -/
def check_counterexample (s : InequalitySystem) (counterexample : List Double) : Bool :=
  let inner_prod :=
    inner_product (fun q val => Double.mul q.rhs val) s.ineqs counterexample Double.zero
  let matrix_is_zero := (List.range s.num_vars).all fun j =>
    Double.eq
      (inner_product (fun q val => Double.mul (q.coeffs.getD j Double.zero) val) s.ineqs
        counterexample Double.zero)
      Double.zero
  Double.lt inner_prod Double.zero && matrix_is_zero

end InequalitySystem

/-- The loop of `reduce_system`. -/
def reduce_loop : Nat → List InequalitySystem → InequalitySystem → List InequalitySystem
  | 0, done, back => done ++ [back]
  | i + 1, done, back =>
    reduce_loop i (done ++ [(back.reduce_on i).1]) (back.reduce_on i).2

/-- The function `reduce_system(sys)`. -/
def reduce_system (sys : InequalitySystem) : List InequalitySystem :=
  reduce_loop sys.num_vars [] sys

/-- The function `compute_parents(sys, parents, length)`. -/
def compute_parents (sys : InequalitySystem) (parents : List Double) (length : Nat) :
    List Double :=
  (List.range parents.length).foldl
    (fun ret p =>
      (sys.get_parents p).foldl
        (fun ret np =>
          ret.modify
            (fun r => Double.add r
              (Double.div (parents.getD p Double.zero) (sys.get_scaling_factor p))) np)
        ret)
    (List.replicate length Double.zero)

/-- The loop of `compute_counter_example`, on the reversed chain. -/
def counter_example_loop : List InequalitySystem → List Double → List Double
  | it :: next :: rest, parents =>
    counter_example_loop (next :: rest) (compute_parents it parents next.num_ineqs)
  | _, parents => parents

/-- The function `compute_counter_example(steps)`. -/
def compute_counter_example (steps : List InequalitySystem) : List Double :=
  let back := steps.getLastD default
  let parents := (List.replicate back.num_ineqs Double.zero).modify
    (fun r => Double.add r Double.one) (back.find_invalid [])
  counter_example_loop steps.reverse parents

/-- The loop of `recover_variables`. -/
def recover_loop (steps : List InequalitySystem) (num_vars : Nat) :
    Nat → List Double → List Double
  | 0, ret => ret
  | i + 1, ret =>
    recover_loop steps num_vars i
      (ret ++ [(steps.getD i default).calc_variable (num_vars - (i + 1))
        (ret ++ [Double.zero])])

/-- The function `recover_variables(steps)`. -/
def recover_variables (steps : List InequalitySystem) : List Double :=
  recover_loop steps (steps.headD default).num_vars (steps.length - 1) []

/-- The function `fourier_motzkin`, from the system that `read_file` returns. -/
def fourier_motzkin (sys : InequalitySystem) : certificate :=
  let steps := reduce_system sys
  if !(steps.getLastD default).is_valid [] then
    ⟨compute_counter_example steps, false⟩
  else
    ⟨recover_variables steps, true⟩

/-- Every stored inequality has `num_vars` coefficients and the declared number of
inequalities is the number stored. -/
def WellFormed (s : InequalitySystem) : Prop :=
  (∀ q ∈ s.ineqs, q.coeffs.length = s.num_vars) ∧ s.num_ineqs = s.ineqs.length

instance (s : InequalitySystem) : Decidable (WellFormed s) := by
  unfold WellFormed; infer_instance

end Dbl

/-! ## Example inputs

Each is the system that `read_file` builds: no parents, scaling factor `1`. -/

/-- Scenario A: `x ≤ -1`, `-x ≤ -1`. -/
def scenarioA : InequalitySystem :=
  ⟨[⟨[1], -1, [], 1⟩, ⟨[-1], -1, [], 1⟩], 1, 2⟩

/-- Scenario B: `x + y ≤ 5`, `-x ≤ -1`, `-y ≤ -1`. -/
def scenarioB : InequalitySystem :=
  ⟨[⟨[1, 1], 5, [], 1⟩, ⟨[-1, 0], -1, [], 1⟩, ⟨[0, -1], -1, [], 1⟩], 2, 3⟩

/-- Scenario C: no variables and no constraints. -/
def scenarioC : InequalitySystem := ⟨[], 0, 0⟩

/-- Scenario D: no variables and the single constraint `0 ≤ -1`. -/
def scenarioD : InequalitySystem := ⟨[⟨[], -1, [], 1⟩], 0, 1⟩

/-- The infeasible system `x ≤ -1`, `-2x ≤ -2`: scenario A with its second row
doubled (input file `2 1`, `0`, `-1 -2`, `1`, `-2`). -/
def scenarioA_doubled : InequalitySystem :=
  ⟨[⟨[1], -1, [], 1⟩, ⟨[-2], -2, [], 1⟩], 1, 2⟩

open InequalitySystem Inequality

/-! ## Basic facts -/

theorem inner_product_eq_sum {α β : Type} (op2 : α → β → ℚ) (as : List α) (bs : List β)
    (acc : ℚ) : inner_product op2 as bs acc = acc + (List.zipWith op2 as bs).sum := by
  induction as generalizing bs acc with
  | nil => simp [inner_product]
  | cons a as ih =>
    cases bs with
    | nil => simp [inner_product]
    | cons b bs => simp [inner_product, ih, add_assoc]

theorem evaluate_lhs_eq_dot (q : Inequality) (x : List ℚ) :
    q.evaluate_lhs x = dot q.coeffs x := by
  simp [Inequality.evaluate_lhs, dot, inner_product_eq_sum]

theorem is_valid_iff (q : Inequality) (x : List ℚ) :
    q.is_valid x = true ↔ dot q.coeffs x ≤ q.rhs := by
  simp [Inequality.is_valid, evaluate_lhs_eq_dot]

theorem sys_is_valid_iff (s : InequalitySystem) (x : List ℚ) :
    s.is_valid x = true ↔ ∀ q ∈ s.ineqs, dot q.coeffs x ≤ q.rhs := by
  simp [InequalitySystem.is_valid, is_valid_iff]

theorem dot_nil_right (c : List ℚ) : dot c [] = 0 := by simp [dot]

theorem dot_nil_left (x : List ℚ) : dot [] x = 0 := by simp [dot]

theorem dot_cons (a : ℚ) (c : List ℚ) (b : ℚ) (x : List ℚ) :
    dot (a :: c) (b :: x) = a * b + dot c x := by simp [dot]

theorem dot_map_mul (c x : List ℚ) (a : ℚ) :
    dot (c.map fun t => t * a) x = a * dot c x := by
  induction c generalizing x with
  | nil => simp [dot]
  | cons t c ih =>
    cases x with
    | nil => simp [dot]
    | cons b x => simp only [List.map_cons, dot_cons, ih]; ring

/-! ## The in-place normalization -/

theorem getElem?_foldl_modify {α : Type} (f : α → α) (l : List Nat) (hl : l.Nodup)
    (xs : List α) (j : Nat) :
    (l.foldl (fun acc i => acc.modify f i) xs)[j]? =
      if j ∈ l then xs[j]?.map f else xs[j]? := by
  induction l generalizing xs with
  | nil => simp
  | cons i l ih =>
    rw [List.nodup_cons] at hl
    rw [List.foldl_cons, ih hl.2, List.getElem?_modify]
    by_cases hij : i = j
    · subst hij
      simp [hl.1]
    · have hji : j ≠ i := fun h => hij h.symm
      simp only [hij, if_false, List.mem_cons, hji, false_or]
      cases xs[j]? <;> simp

theorem mem_partition (s : InequalitySystem) (k : Nat) (sg : Sign) (j : Nat) :
    j ∈ s.partition k sg ↔ j < s.ineqs.length ∧ (s.ineq j).get_sign k = sg := by
  simp [InequalitySystem.partition]

theorem nodup_partition (s : InequalitySystem) (k : Nat) (sg : Sign) :
    (s.partition k sg).Nodup :=
  (List.nodup_range _).filter _

theorem ineq_eq_of_getElem? (s : InequalitySystem) (j : Nat) (q : Inequality)
    (h : s.ineqs[j]? = some q) : s.ineq j = q := by
  simp [InequalitySystem.ineq, List.getD, h]

theorem normalized_ineqs (s : InequalitySystem) (k : Nat) :
    (s.normalized k).ineqs = s.ineqs.map (norm_ineq k) := by
  apply List.ext_getElem?
  intro j
  simp only [InequalitySystem.normalized, InequalitySystem.normalize_all]
  rw [getElem?_foldl_modify _ _ (nodup_partition s k _),
    getElem?_foldl_modify _ _ (nodup_partition s k _)]
  simp only [mem_partition, List.getElem?_map]
  rcases hq : s.ineqs[j]? with _ | q
  · simp
  · have hj : j < s.ineqs.length := by
      by_contra hcon
      rw [List.getElem?_eq_none (by omega)] at hq
      exact absurd hq (by simp)
    have hsq := ineq_eq_of_getElem? s j q hq
    simp only [hj, true_and, hsq, Option.map_some']
    unfold norm_ineq
    rcases hs : q.get_sign k with _ | _ | _ <;> simp

/-! ## Scaling by a positive factor -/

/-- The factor by which the normalization loops of `reduce_on(index)` multiply an
inequality. -/
theorem norm_ineq_eq_scale (k : Nat) (q : Inequality) :
    norm_ineq k q =
      q.scale (if q.coeffs.getD k 0 = 0 then 1 else 1 / |q.coeffs.getD k 0|) := by
  unfold norm_ineq Inequality.get_sign Inequality.normalize_on
  generalize q.coeffs.getD k 0 = c
  by_cases h : c = 0
  · simp [h, Inequality.scale]
  · by_cases h2 : c > 0 <;> simp [h, h2]

theorem norm_factor_pos (k : Nat) (q : Inequality) :
    0 < (if q.coeffs.getD k 0 = 0 then (1 : ℚ) else 1 / |q.coeffs.getD k 0|) := by
  generalize q.coeffs.getD k 0 = c
  by_cases h : c = 0
  · simp [h]
  · simp only [h, if_false]
    exact div_pos one_pos (abs_pos.mpr h)

theorem getD_map_mul (c : List ℚ) (a : ℚ) (k : Nat) :
    (c.map fun t => t * a).getD k 0 = c.getD k 0 * a := by
  induction c generalizing k with
  | nil => simp
  | cons t c ih =>
    cases k with
    | zero => simp
    | succ k => simpa using ih k

theorem scale_is_valid (q : Inequality) (a : ℚ) (ha : 0 < a) (x : List ℚ) :
    (q.scale a).is_valid x = q.is_valid x := by
  rw [Bool.eq_iff_iff, is_valid_iff, is_valid_iff]
  simp only [Inequality.scale, dot_map_mul]
  rw [mul_comm q.rhs a]
  exact mul_le_mul_left ha

theorem norm_ineq_is_valid (k : Nat) (q : Inequality) (x : List ℚ) :
    (norm_ineq k q).is_valid x = q.is_valid x := by
  rw [norm_ineq_eq_scale]
  exact scale_is_valid q _ (norm_factor_pos k q) x

theorem norm_ineq_parents (k : Nat) (q : Inequality) :
    (norm_ineq k q).parents = q.parents := by
  rw [norm_ineq_eq_scale]; rfl

theorem norm_ineq_length (k : Nat) (q : Inequality) :
    (norm_ineq k q).coeffs.length = q.coeffs.length := by
  rw [norm_ineq_eq_scale]; simp [Inequality.scale]

theorem norm_ineq_getD (k : Nat) (q : Inequality) :
    (norm_ineq k q).coeffs.getD k 0 =
      if q.coeffs.getD k 0 = 0 then 0
      else if 0 < q.coeffs.getD k 0 then 1 else -1 := by
  rw [norm_ineq_eq_scale]
  simp only [Inequality.scale, getD_map_mul]
  generalize q.coeffs.getD k 0 = c
  by_cases h : c = 0
  · simp [h]
  · by_cases h2 : 0 < c
    · simp only [h, h2, if_false, if_true]
      rw [abs_of_pos h2]; field_simp
    · have h3 : c < 0 := lt_of_le_of_ne (not_lt.mp h2) h
      simp only [h, h2, if_false]
      rw [abs_of_neg h3, mul_one_div, div_neg, div_self h]

theorem norm_ineq_get_sign (k : Nat) (q : Inequality) :
    (norm_ineq k q).get_sign k = q.get_sign k := by
  unfold Inequality.get_sign
  rw [norm_ineq_getD]
  generalize q.coeffs.getD k 0 = c
  by_cases h : c = 0
  · simp [h]
  · by_cases h2 : 0 < c
    · simp [h, h2]
    · simp [h, h2]

theorem normalized_length (s : InequalitySystem) (k : Nat) :
    (s.normalized k).ineqs.length = s.ineqs.length := by
  simp [normalized_ineqs]

theorem normalized_ineq (s : InequalitySystem) (k i : Nat) (hi : i < s.ineqs.length) :
    (s.normalized k).ineq i = norm_ineq k (s.ineq i) := by
  simp [InequalitySystem.ineq, normalized_ineqs, List.getD_eq_getElem?_getD,
    List.getElem?_map, List.getElem?_eq_getElem hi]

theorem normalized_is_valid (s : InequalitySystem) (k : Nat) (x : List ℚ) :
    (s.normalized k).is_valid x = s.is_valid x := by
  simp [InequalitySystem.is_valid, normalized_ineqs, List.all_map, Function.comp_def,
    norm_ineq_is_valid]

theorem reduce_on_fst (s : InequalitySystem) (k : Nat) :
    (s.reduce_on k).1 = s.normalized k := rfl

theorem partition_normalized (s : InequalitySystem) (k : Nat) (sg : Sign) :
    (s.normalized k).partition k sg = s.partition k sg := by
  unfold InequalitySystem.partition
  rw [normalized_length]
  apply List.filter_congr
  intro i hi
  rw [List.mem_range] at hi
  rw [normalized_ineq s k i hi, norm_ineq_get_sign]

/-! ## Sizes -/

theorem partition_lengths (s : InequalitySystem) (k : Nat) :
    (s.partition k Sign.Zero).length + (s.partition k Sign.Positive).length +
      (s.partition k Sign.Negative).length = s.ineqs.length := by
  unfold InequalitySystem.partition
  have key : ∀ (g : Nat → Sign) (l : List Nat),
      (l.filter fun i => g i = Sign.Zero).length +
        (l.filter fun i => g i = Sign.Positive).length +
        (l.filter fun i => g i = Sign.Negative).length = l.length := by
    intro g l
    induction l with
    | nil => simp
    | cons a l ih =>
      rcases h : g a with _ | _ | _ <;> simp [List.filter_cons, h] <;> omega
  have h := key (fun i => (s.ineq i).get_sign k) (List.range s.ineqs.length)
  rwa [List.length_range] at h

theorem reduce_on_snd_length (s : InequalitySystem) (k : Nat) :
    (s.reduce_on k).2.ineqs.length =
      (s.partition k Sign.Zero).length +
        (s.partition k Sign.Positive).length * (s.partition k Sign.Negative).length := by
  simp only [InequalitySystem.reduce_on, List.length_append, List.length_flatMap,
    List.length_map, Function.comp_def, List.map_const', List.sum_replicate, smul_eq_mul]
  omega

/-! ## Dropping and inserting one coordinate -/

theorem dot_insertIdx (c x : List ℚ) (k : Nat) (v : ℚ) (hk : k ≤ x.length)
    (hc : c.length = x.length + 1) :
    dot c (x.insertIdx k v) = dot (c.eraseIdx k) x + c.getD k 0 * v := by
  induction k generalizing c x with
  | zero =>
    cases c with
    | nil => simp at hc
    | cons a c => simp [dot_cons]; ring
  | succ k ih =>
    cases c with
    | nil => simp at hc
    | cons a c =>
      cases x with
      | nil => simp at hk
      | cons b x =>
        simp only [List.length_cons, add_le_add_iff_right, add_left_inj] at hk hc
        rw [List.insertIdx_succ_cons, List.eraseIdx_cons_succ, dot_cons, dot_cons,
          List.getD_cons_succ, ih c x hk hc]
        ring

theorem eraseIdx_zipWith_add (c1 c2 : List ℚ) (k : Nat) :
    (List.zipWith (· + ·) c1 c2).eraseIdx k =
      List.zipWith (· + ·) (c1.eraseIdx k) (c2.eraseIdx k) := by
  induction c1 generalizing c2 k with
  | nil => simp
  | cons a c1 ih =>
    cases c2 with
    | nil => simp
    | cons b c2 =>
      cases k with
      | zero => simp
      | succ k => simp [ih]

theorem dot_zipWith_add (c1 c2 x : List ℚ) (h : c1.length = c2.length) :
    dot (List.zipWith (· + ·) c1 c2) x = dot c1 x + dot c2 x := by
  induction c1 generalizing c2 x with
  | nil =>
    cases c2 with
    | nil => simp [dot]
    | cons b c2 => simp at h
  | cons a c1 ih =>
    cases c2 with
    | nil => simp at h
    | cons b c2 =>
      cases x with
      | nil => simp [dot]
      | cons t x =>
        simp only [List.length_cons, add_left_inj] at h
        simp only [List.zipWith_cons_cons, dot_cons, ih c2 x h]
        ring

theorem combine_dot (q1 q2 : Inequality) (i1 i2 k : Nat) (x : List ℚ)
    (h : q1.coeffs.length = q2.coeffs.length) :
    dot (Inequality.combine q1 i1 q2 i2 k).coeffs x =
      dot (q1.coeffs.eraseIdx k) x + dot (q2.coeffs.eraseIdx k) x := by
  simp only [Inequality.combine]
  rw [eraseIdx_zipWith_add, dot_zipWith_add]
  simp [List.length_eraseIdx, h]

/-! ## Signs -/

theorem get_sign_zero_iff (q : Inequality) (k : Nat) :
    q.get_sign k = Sign.Zero ↔ q.coeffs.getD k 0 = 0 := by
  unfold Inequality.get_sign
  generalize q.coeffs.getD k 0 = c
  by_cases h : c = 0
  · simp [h]
  · by_cases h2 : c > 0 <;> simp [h, h2]

theorem get_sign_pos_iff (q : Inequality) (k : Nat) :
    q.get_sign k = Sign.Positive ↔ 0 < q.coeffs.getD k 0 := by
  unfold Inequality.get_sign
  generalize q.coeffs.getD k 0 = c
  by_cases h : c = 0
  · simp [h]
  · by_cases h2 : c > 0
    · simp [h, h2]
    · simp only [h, h2, if_false]
      simp only [gt_iff_lt] at h2
      simp [h2]

theorem get_sign_neg_iff (q : Inequality) (k : Nat) :
    q.get_sign k = Sign.Negative ↔ q.coeffs.getD k 0 < 0 := by
  unfold Inequality.get_sign
  generalize q.coeffs.getD k 0 = c
  by_cases h : c = 0
  · simp [h]
  · by_cases h2 : c > 0
    · simp only [h, h2, if_false, if_true]
      simp only [gt_iff_lt] at h2
      simp [not_lt.mpr h2.le]
    · simp only [h, h2, if_false]
      simp only [gt_iff_lt, not_lt] at h2
      simp [lt_of_le_of_ne h2 h]

theorem norm_getD_of_zero (k : Nat) (q : Inequality) (h : q.get_sign k = Sign.Zero) :
    (norm_ineq k q).coeffs.getD k 0 = 0 := by
  rw [norm_ineq_getD, if_pos ((get_sign_zero_iff q k).mp h)]

theorem norm_getD_of_pos (k : Nat) (q : Inequality) (h : q.get_sign k = Sign.Positive) :
    (norm_ineq k q).coeffs.getD k 0 = 1 := by
  have h1 := (get_sign_pos_iff q k).mp h
  rw [norm_ineq_getD, if_neg (ne_of_gt h1), if_pos h1]

theorem norm_getD_of_neg (k : Nat) (q : Inequality) (h : q.get_sign k = Sign.Negative) :
    (norm_ineq k q).coeffs.getD k 0 = -1 := by
  have h1 := (get_sign_neg_iff q k).mp h
  rw [norm_ineq_getD, if_neg (ne_of_lt h1), if_neg (not_lt.mpr h1.le)]

theorem ineq_mem (s : InequalitySystem) (i : Nat) (hi : i < s.ineqs.length) :
    s.ineq i ∈ s.ineqs := by
  simp only [InequalitySystem.ineq, List.getD_eq_getElem _ _ hi]
  exact List.getElem_mem hi

theorem exists_ineq_of_mem (s : InequalitySystem) (q : Inequality) (hq : q ∈ s.ineqs) :
    ∃ i, i < s.ineqs.length ∧ s.ineq i = q := by
  obtain ⟨i, hi, h⟩ := List.mem_iff_getElem.mp hq
  exact ⟨i, hi, by rw [InequalitySystem.ineq, List.getD_eq_getElem _ _ hi, h]⟩

theorem sys_is_valid_iff_index (s : InequalitySystem) (x : List ℚ) :
    s.is_valid x = true ↔
      ∀ i, i < s.ineqs.length → dot (s.ineq i).coeffs x ≤ (s.ineq i).rhs := by
  rw [sys_is_valid_iff]
  constructor
  · intro h i hi
    exact h _ (ineq_mem s i hi)
  · intro h q hq
    obtain ⟨i, hi, rfl⟩ := exists_ineq_of_mem s q hq
    exact h i hi

theorem WellFormed.length_ineq {s : InequalitySystem} (h : WellFormed s) (i : Nat)
    (hi : i < s.ineqs.length) : (s.ineq i).coeffs.length = s.num_vars :=
  h.1 _ (ineq_mem s i hi)

theorem mem_reduce_on_snd (s : InequalitySystem) (k : Nat) (q : Inequality) :
    q ∈ (s.reduce_on k).2.ineqs ↔
      (∃ p ∈ s.partition k Sign.Positive, ∃ m ∈ s.partition k Sign.Negative,
        q = Inequality.combine ((s.normalized k).ineq p) p ((s.normalized k).ineq m) m k) ∨
      (∃ z ∈ s.partition k Sign.Zero,
        q = Inequality.drop_one ((s.normalized k).ineq z) z k) := by
  simp only [InequalitySystem.reduce_on, List.mem_append, List.mem_flatMap, List.mem_map]
  constructor
  · rintro (⟨p, hp, m, hm, rfl⟩ | ⟨z, hz, rfl⟩)
    · exact Or.inl ⟨p, hp, m, hm, rfl⟩
    · exact Or.inr ⟨z, hz, rfl⟩
  · rintro (⟨p, hp, m, hm, rfl⟩ | ⟨z, hz, rfl⟩)
    · exact Or.inl ⟨p, hp, m, hm, rfl⟩
    · exact Or.inr ⟨z, hz, rfl⟩

/-! ## One elimination step -/

theorem row_eval (s : InequalitySystem) (k : Nat) (hwf : WellFormed s) (x : List ℚ)
    (hx : x.length + 1 = s.num_vars) (hk : k < s.num_vars) (v : ℚ) (i : Nat)
    (hi : i < s.ineqs.length) :
    dot ((s.normalized k).ineq i).coeffs (x.insertIdx k v) =
      rest (s.normalized k) k x i + ((s.normalized k).ineq i).coeffs.getD k 0 * v := by
  unfold rest
  apply dot_insertIdx
  · omega
  · rw [normalized_ineq s k i hi, norm_ineq_length, hwf.length_ineq i hi, hx]

theorem sign_cases (q : Inequality) (k : Nat) :
    q.get_sign k = Sign.Zero ∨ q.get_sign k = Sign.Positive ∨ q.get_sign k = Sign.Negative := by
  cases q.get_sign k <;> simp

theorem normalized_valid_insert_iff (s : InequalitySystem) (k : Nat) (hwf : WellFormed s)
    (x : List ℚ) (hx : x.length + 1 = s.num_vars) (hk : k < s.num_vars) (v : ℚ) :
    (s.normalized k).is_valid (x.insertIdx k v) = true ↔
      (∀ p ∈ s.partition k Sign.Positive,
          v ≤ ((s.normalized k).ineq p).rhs - rest (s.normalized k) k x p) ∧
      (∀ m ∈ s.partition k Sign.Negative,
          rest (s.normalized k) k x m - ((s.normalized k).ineq m).rhs ≤ v) ∧
      (∀ z ∈ s.partition k Sign.Zero,
          rest (s.normalized k) k x z ≤ ((s.normalized k).ineq z).rhs) := by
  rw [sys_is_valid_iff_index, normalized_length]
  constructor
  · intro h
    refine ⟨?_, ?_, ?_⟩
    · intro p hp
      rw [mem_partition] at hp
      have := h p hp.1
      rw [row_eval s k hwf x hx hk v p hp.1, normalized_ineq s k p hp.1,
        norm_getD_of_pos k _ hp.2] at this
      rw [normalized_ineq s k p hp.1]
      linarith
    · intro m hm
      rw [mem_partition] at hm
      have := h m hm.1
      rw [row_eval s k hwf x hx hk v m hm.1, normalized_ineq s k m hm.1,
        norm_getD_of_neg k _ hm.2] at this
      rw [normalized_ineq s k m hm.1]
      linarith
    · intro z hz
      rw [mem_partition] at hz
      have := h z hz.1
      rw [row_eval s k hwf x hx hk v z hz.1, normalized_ineq s k z hz.1,
        norm_getD_of_zero k _ hz.2] at this
      rw [normalized_ineq s k z hz.1]
      linarith
  · rintro ⟨hP, hN, hZ⟩ i hi
    rw [row_eval s k hwf x hx hk v i hi]
    rcases sign_cases (s.ineq i) k with hs | hs | hs
    · have := hZ i ((mem_partition s k _ i).mpr ⟨hi, hs⟩)
      rw [normalized_ineq s k i hi, norm_getD_of_zero k _ hs]
      rw [normalized_ineq s k i hi] at this
      linarith
    · have := hP i ((mem_partition s k _ i).mpr ⟨hi, hs⟩)
      rw [normalized_ineq s k i hi, norm_getD_of_pos k _ hs]
      rw [normalized_ineq s k i hi] at this
      linarith
    · have := hN i ((mem_partition s k _ i).mpr ⟨hi, hs⟩)
      rw [normalized_ineq s k i hi, norm_getD_of_neg k _ hs]
      rw [normalized_ineq s k i hi] at this
      linarith

theorem reduced_valid_iff (s : InequalitySystem) (k : Nat) (hwf : WellFormed s)
    (x : List ℚ) :
    (s.reduce_on k).2.is_valid x = true ↔
      (∀ p ∈ s.partition k Sign.Positive, ∀ m ∈ s.partition k Sign.Negative,
          rest (s.normalized k) k x p + rest (s.normalized k) k x m ≤
            ((s.normalized k).ineq p).rhs + ((s.normalized k).ineq m).rhs) ∧
      (∀ z ∈ s.partition k Sign.Zero,
          rest (s.normalized k) k x z ≤ ((s.normalized k).ineq z).rhs) := by
  rw [sys_is_valid_iff]
  have hlen : ∀ i, i ∈ s.partition k Sign.Positive ∨ i ∈ s.partition k Sign.Negative →
      ((s.normalized k).ineq i).coeffs.length = s.num_vars := by
    intro i hi
    have hi' : i < s.ineqs.length := by
      rcases hi with hi | hi <;> exact ((mem_partition s k _ i).mp hi).1
    rw [normalized_ineq s k i hi', norm_ineq_length, hwf.length_ineq i hi']
  constructor
  · intro h
    refine ⟨?_, ?_⟩
    · intro p hp m hm
      have := h _ ((mem_reduce_on_snd s k _).mpr (Or.inl ⟨p, hp, m, hm, rfl⟩))
      rw [combine_dot _ _ _ _ _ _
        ((hlen p (Or.inl hp)).trans (hlen m (Or.inr hm)).symm)] at this
      exact this
    · intro z hz
      exact h _ ((mem_reduce_on_snd s k _).mpr (Or.inr ⟨z, hz, rfl⟩))
  · rintro ⟨hPN, hZ⟩ q hq
    rcases (mem_reduce_on_snd s k q).mp hq with ⟨p, hp, m, hm, rfl⟩ | ⟨z, hz, rfl⟩
    · rw [combine_dot _ _ _ _ _ _
        ((hlen p (Or.inl hp)).trans (hlen m (Or.inr hm)).symm)]
      exact hPN p hp m hm
    · exact hZ z hz

/-! ## The running minimum and maximum -/

theorem foldl_step_min (f : Nat → ℚ) (l : List Nat) (a : ℚ) :
    ∃ v, l.foldl (fun acc i => step_with min acc (f i)) (some a) = some v ∧ v ≤ a ∧
      (∀ i ∈ l, v ≤ f i) ∧ (v = a ∨ ∃ i ∈ l, v = f i) := by
  induction l generalizing a with
  | nil => exact ⟨a, rfl, le_refl _, by simp, Or.inl rfl⟩
  | cons i l ih =>
    obtain ⟨v, hv, hle, hall, hex⟩ := ih (min a (f i))
    refine ⟨v, by simpa [step_with] using hv, hle.trans (min_le_left _ _), ?_, ?_⟩
    · intro j hj
      rcases List.mem_cons.mp hj with rfl | hj
      · exact hle.trans (min_le_right _ _)
      · exact hall j hj
    · rcases hex with h | ⟨j, hj, h⟩
      · rcases min_choice a (f i) with h2 | h2
        · exact Or.inl (h.trans h2)
        · exact Or.inr ⟨i, List.mem_cons_self _ _, h.trans h2⟩
      · exact Or.inr ⟨j, List.mem_cons_of_mem _ hj, h⟩

theorem foldl_step_max (f : Nat → ℚ) (l : List Nat) (a : ℚ) :
    ∃ v, l.foldl (fun acc i => step_with max acc (f i)) (some a) = some v ∧ a ≤ v ∧
      (∀ i ∈ l, f i ≤ v) ∧ (v = a ∨ ∃ i ∈ l, v = f i) := by
  induction l generalizing a with
  | nil => exact ⟨a, rfl, le_refl _, by simp, Or.inl rfl⟩
  | cons i l ih =>
    obtain ⟨v, hv, hle, hall, hex⟩ := ih (max a (f i))
    refine ⟨v, by simpa [step_with] using hv, (le_max_left _ _).trans hle, ?_, ?_⟩
    · intro j hj
      rcases List.mem_cons.mp hj with rfl | hj
      · exact (le_max_right _ _).trans hle
      · exact hall j hj
    · rcases hex with h | ⟨j, hj, h⟩
      · rcases max_choice a (f i) with h2 | h2
        · exact Or.inl (h.trans h2)
        · exact Or.inr ⟨i, List.mem_cons_self _ _, h.trans h2⟩
      · exact Or.inr ⟨j, List.mem_cons_of_mem _ hj, h⟩

theorem get_min_spec (s : InequalitySystem) (l : List Nat) (x : List ℚ) (hl : l ≠ []) :
    ∃ v, s.get_min l x = some v ∧
      (∀ i ∈ l, v ≤ (s.ineq i).rhs - (s.ineq i).evaluate_lhs x) ∧
      (∃ i ∈ l, v = (s.ineq i).rhs - (s.ineq i).evaluate_lhs x) := by
  cases l with
  | nil => exact absurd rfl hl
  | cons i l =>
    obtain ⟨v, hv, hle, hall, hex⟩ :=
      foldl_step_min (fun i => (s.ineq i).rhs - (s.ineq i).evaluate_lhs x) l
        ((s.ineq i).rhs - (s.ineq i).evaluate_lhs x)
    refine ⟨v, by simpa [InequalitySystem.get_min, step_with] using hv, ?_, ?_⟩
    · intro j hj
      rcases List.mem_cons.mp hj with rfl | hj
      · exact hle
      · exact hall j hj
    · rcases hex with h | ⟨j, hj, h⟩
      · exact ⟨i, List.mem_cons_self _ _, h⟩
      · exact ⟨j, List.mem_cons_of_mem _ hj, h⟩

theorem get_max_spec (s : InequalitySystem) (l : List Nat) (x : List ℚ) (hl : l ≠ []) :
    ∃ v, s.get_max l x = some v ∧
      (∀ i ∈ l, (s.ineq i).evaluate_lhs x - (s.ineq i).rhs ≤ v) ∧
      (∃ i ∈ l, v = (s.ineq i).evaluate_lhs x - (s.ineq i).rhs) := by
  cases l with
  | nil => exact absurd rfl hl
  | cons i l =>
    obtain ⟨v, hv, hle, hall, hex⟩ :=
      foldl_step_max (fun i => (s.ineq i).evaluate_lhs x - (s.ineq i).rhs) l
        ((s.ineq i).evaluate_lhs x - (s.ineq i).rhs)
    refine ⟨v, by simpa [InequalitySystem.get_max, step_with] using hv, ?_, ?_⟩
    · intro j hj
      rcases List.mem_cons.mp hj with rfl | hj
      · exact hle
      · exact hall j hj
    · rcases hex with h | ⟨j, hj, h⟩
      · exact ⟨i, List.mem_cons_self _ _, h⟩
      · exact ⟨j, List.mem_cons_of_mem _ hj, h⟩

/-! ## Recovering the eliminated variable -/

theorem eval_insert_zero (s : InequalitySystem) (k : Nat) (hwf : WellFormed s) (x : List ℚ)
    (hx : x.length + 1 = s.num_vars) (hk : k < s.num_vars) (i : Nat)
    (hi : i < s.ineqs.length) :
    ((s.normalized k).ineq i).evaluate_lhs (x.insertIdx k 0) =
      rest (s.normalized k) k x i := by
  rw [evaluate_lhs_eq_dot, row_eval s k hwf x hx hk 0 i hi]; ring

theorem calc_variable_spec (s : InequalitySystem) (k : Nat) (hwf : WellFormed s)
    (x : List ℚ) (hx : x.length + 1 = s.num_vars) (hk : k < s.num_vars)
    (hR : (s.reduce_on k).2.is_valid x = true) :
    ∃ v, (s.normalized k).calc_variable k (x.insertIdx k 0) = some v ∧
      (s.normalized k).is_valid (x.insertIdx k v) = true := by
  obtain ⟨hPN, hZ⟩ := (reduced_valid_iff s k hwf x).mp hR
  unfold InequalitySystem.calc_variable
  simp only [partition_normalized]
  by_cases h0 : (s.partition k Sign.Positive).length +
      (s.partition k Sign.Negative).length = 0
  · rw [if_pos h0]
    refine ⟨0, rfl, ?_⟩
    have hP : s.partition k Sign.Positive = [] := List.length_eq_zero.mp (by omega)
    have hN : s.partition k Sign.Negative = [] := List.length_eq_zero.mp (by omega)
    rw [normalized_valid_insert_iff s k hwf x hx hk]
    exact ⟨by simp [hP], by simp [hN], hZ⟩
  · rw [if_neg h0]
    by_cases h1 : (s.partition k Sign.Positive).length >
        (s.partition k Sign.Negative).length
    · rw [if_pos h1]
      have hne : s.partition k Sign.Positive ≠ [] := by
        intro h; rw [h] at h1; simp at h1
      obtain ⟨v, hv, hall, p0, hp0, hv0⟩ :=
        get_min_spec (s.normalized k) _ (x.insertIdx k 0) hne
      refine ⟨v, hv, ?_⟩
      rw [normalized_valid_insert_iff s k hwf x hx hk]
      refine ⟨?_, ?_, hZ⟩
      · intro p hp
        have := hall p hp
        rwa [eval_insert_zero s k hwf x hx hk p ((mem_partition s k _ p).mp hp).1] at this
      · intro m hm
        rw [hv0, eval_insert_zero s k hwf x hx hk p0 ((mem_partition s k _ p0).mp hp0).1]
        have := hPN p0 hp0 m hm
        linarith
    · rw [if_neg h1]
      have hne : s.partition k Sign.Negative ≠ [] := by
        intro h
        rw [h, List.length_nil] at h1 h0
        omega
      obtain ⟨v, hv, hall, m0, hm0, hv0⟩ :=
        get_max_spec (s.normalized k) _ (x.insertIdx k 0) hne
      refine ⟨v, hv, ?_⟩
      rw [normalized_valid_insert_iff s k hwf x hx hk]
      refine ⟨?_, ?_, hZ⟩
      · intro p hp
        rw [hv0, eval_insert_zero s k hwf x hx hk m0 ((mem_partition s k _ m0).mp hm0).1]
        have := hPN p hp m0 hm0
        linarith
      · intro m hm
        have := hall m hm
        rwa [eval_insert_zero s k hwf x hx hk m ((mem_partition s k _ m).mp hm).1] at this

theorem reduce_on_sound (s : InequalitySystem) (k : Nat) (hwf : WellFormed s)
    (x : List ℚ) (hx : x.length + 1 = s.num_vars) (hk : k < s.num_vars) (v : ℚ)
    (hv : s.is_valid (x.insertIdx k v) = true) :
    (s.reduce_on k).2.is_valid x = true := by
  rw [← normalized_is_valid s k, normalized_valid_insert_iff s k hwf x hx hk] at hv
  obtain ⟨hP, hN, hZ⟩ := hv
  rw [reduced_valid_iff s k hwf x]
  refine ⟨?_, hZ⟩
  intro p hp m hm
  have h1 := hP p hp
  have h2 := hN m hm
  linarith

theorem reduce_on_exact (s : InequalitySystem) (k : Nat) (hwf : WellFormed s)
    (x : List ℚ) (hx : x.length + 1 = s.num_vars) (hk : k < s.num_vars) :
    (s.reduce_on k).2.is_valid x = true ↔ ∃ v, s.is_valid (x.insertIdx k v) = true := by
  constructor
  · intro hR
    obtain ⟨v, _, hv⟩ := calc_variable_spec s k hwf x hx hk hR
    exact ⟨v, by rwa [normalized_is_valid] at hv⟩
  · rintro ⟨v, hv⟩
    exact reduce_on_sound s k hwf x hx hk v hv

/-! ## Well-formedness along the chain -/

theorem reduce_on_snd_num_vars (s : InequalitySystem) (k : Nat) :
    (s.reduce_on k).2.num_vars = s.num_vars - 1 := rfl

theorem reduce_on_snd_num_ineqs (s : InequalitySystem) (k : Nat) :
    (s.reduce_on k).2.num_ineqs = (s.reduce_on k).2.ineqs.length := by
  rw [reduce_on_snd_length]; rfl

theorem normalized_wf (s : InequalitySystem) (k : Nat) (hwf : WellFormed s) :
    WellFormed (s.normalized k) := by
  refine ⟨?_, ?_⟩
  · intro q hq
    rw [normalized_ineqs, List.mem_map] at hq
    obtain ⟨q0, hq0, rfl⟩ := hq
    rw [norm_ineq_length]
    exact hwf.1 q0 hq0
  · rw [normalized_length]; exact hwf.2

theorem reduce_on_wf (s : InequalitySystem) (k : Nat) (hwf : WellFormed s)
    (hk : k < s.num_vars) : WellFormed (s.reduce_on k).2 := by
  refine ⟨?_, reduce_on_snd_num_ineqs s k⟩
  intro q hq
  have hlen : ∀ i, i < s.ineqs.length →
      ((s.normalized k).ineq i).coeffs.length = s.num_vars := by
    intro i hi
    rw [normalized_ineq s k i hi, norm_ineq_length, hwf.length_ineq i hi]
  rw [reduce_on_snd_num_vars]
  rcases (mem_reduce_on_snd s k q).mp hq with ⟨p, hp, m, hm, rfl⟩ | ⟨z, hz, rfl⟩
  · have h1 := hlen p ((mem_partition s k _ p).mp hp).1
    have h2 := hlen m ((mem_partition s k _ m).mp hm).1
    simp only [Inequality.combine, List.length_eraseIdx, List.length_zipWith, h1, h2,
      min_self, if_pos hk]
  · have h1 := hlen z ((mem_partition s k _ z).mp hz).1
    simp only [Inequality.drop_one, List.length_eraseIdx, h1, if_pos hk]

/-! ## The chain -/

theorem reduce_loop_eq (i : Nat) (done : List InequalitySystem) (back : InequalitySystem) :
    reduce_loop i done back = done ++ chain i back := by
  induction i generalizing done back with
  | zero => rfl
  | succ i ih => simp [reduce_loop, chain, ih]

theorem reduce_system_eq (s : InequalitySystem) :
    reduce_system s = chain s.num_vars s := by
  simp [reduce_system, reduce_loop_eq]

theorem chain_length (i : Nat) (s : InequalitySystem) : (chain i s).length = i + 1 := by
  induction i generalizing s with
  | zero => rfl
  | succ i ih => simp [chain, ih]

theorem chain_ne_nil (i : Nat) (s : InequalitySystem) : chain i s ≠ [] := by
  cases i <;> simp [chain]

theorem getLastD_cons_of_ne_nil {α : Type} (a d : α) (l : List α) (h : l ≠ []) :
    (a :: l).getLastD d = l.getLastD d := by
  cases l with
  | nil => exact absurd rfl h
  | cons b l => simp [List.getLastD]

theorem chain_getLastD (i : Nat) (s d : InequalitySystem) :
    (chain i s).getLastD d = terminal i s := by
  induction i generalizing s with
  | zero => rfl
  | succ i ih =>
    rw [chain, getLastD_cons_of_ne_nil _ _ _ (chain_ne_nil _ _), ih]
    rfl

theorem terminal_valid_iff (i : Nat) (s : InequalitySystem) (hwf : WellFormed s)
    (hn : s.num_vars = i) :
    (terminal i s).is_valid [] = true ↔ ∃ x, x.length = i ∧ s.is_valid x = true := by
  induction i generalizing s with
  | zero =>
    constructor
    · intro h; exact ⟨[], rfl, h⟩
    · rintro ⟨x, hx, h⟩
      rw [List.length_eq_zero] at hx
      subst hx; exact h
  | succ i ih =>
    have hk : i < s.num_vars := by omega
    have hR := reduce_on_wf s i hwf hk
    have hRn : (s.reduce_on i).2.num_vars = i := by rw [reduce_on_snd_num_vars]; omega
    rw [terminal, ih _ hR hRn]
    constructor
    · rintro ⟨x, hx, h⟩
      obtain ⟨v, hv⟩ := (reduce_on_exact s i hwf x (by omega) hk).mp h
      refine ⟨x.insertIdx i v, ?_, hv⟩
      rw [List.length_insertIdx _ _ (by omega)]; omega
    · rintro ⟨x, hx, h⟩
      have hne : x ≠ [] := by intro h0; rw [h0] at hx; simp at hx
      refine ⟨x.dropLast, by simp [hx], ?_⟩
      apply reduce_on_sound s i hwf x.dropLast (by simp [hx]; omega) hk (x.getLast hne)
      have hi : i = x.dropLast.length := by simp [hx]
      rw [hi, List.insertIdx_length_self, List.dropLast_append_getLast]
      exact h

/-! ## The backward pass that recovers a solution -/

theorem recover_loop_succ (steps : List InequalitySystem) (nv i : Nat) (ret : List ℚ) (v : ℚ)
    (h : (steps.getD i default).calc_variable (nv - (i + 1)) (ret ++ [0]) = some v) :
    recover_loop steps nv (i + 1) ret = recover_loop steps nv i (ret ++ [v]) := by
  rw [recover_loop, h]

theorem recover_chain (i : Nat) (s : InequalitySystem) (pre : List InequalitySystem)
    (hwf : WellFormed s) (hn : s.num_vars = i)
    (hT : (terminal i s).is_valid [] = true) :
    ∃ x, x.length = i ∧ s.is_valid x = true ∧
      recover_loop (pre ++ chain i s) (pre.length + i) (pre.length + i) [] =
        recover_loop (pre ++ chain i s) (pre.length + i) pre.length x := by
  induction i generalizing s pre with
  | zero => exact ⟨[], rfl, hT, rfl⟩
  | succ i ih =>
    have hk : i < s.num_vars := by omega
    have hR := reduce_on_wf s i hwf hk
    have hRn : (s.reduce_on i).2.num_vars = i := by rw [reduce_on_snd_num_vars]; omega
    obtain ⟨x, hx, hval, hloop⟩ := ih (s.reduce_on i).2 (pre ++ [(s.reduce_on i).1]) hR hRn hT
    obtain ⟨v, hv, hvalid⟩ := calc_variable_spec s i hwf x (by omega) hk hval
    have hins : ∀ t : ℚ, x.insertIdx i t = x ++ [t] := by
      intro t; rw [← hx, List.insertIdx_length_self]
    rw [hins] at hv hvalid
    rw [normalized_is_valid] at hvalid
    have hsteps : pre ++ chain (i + 1) s =
        (pre ++ [(s.reduce_on i).1]) ++ chain i (s.reduce_on i).2 := by
      simp [chain]
    have hlen : (pre ++ [(s.reduce_on i).1]).length + i = pre.length + (i + 1) := by
      simp; omega
    have hget : (pre ++ chain (i + 1) s).getD pre.length default = s.normalized i := by
      rw [chain, List.getD_eq_getElem?_getD, List.getElem?_append_right (le_refl _)]
      simp [reduce_on_fst]
    have hlen2 : (pre ++ [(s.reduce_on i).1]).length = pre.length + 1 := by simp
    refine ⟨x ++ [v], by simp [hx], hvalid, ?_⟩
    rw [← hsteps, hlen, hlen2] at hloop
    rw [hloop]
    apply recover_loop_succ
    rw [hget]
    have : pre.length + (i + 1) - (pre.length + 1) = i := by omega
    rw [this]
    exact hv

theorem recover_variables_spec (s : InequalitySystem) (hwf : WellFormed s)
    (hT : (terminal s.num_vars s).is_valid [] = true) :
    ∃ x, recover_variables (reduce_system s) = some x ∧ x.length = s.num_vars ∧
      s.is_valid x = true := by
  obtain ⟨x, hx, hval, hloop⟩ := recover_chain s.num_vars s [] hwf rfl hT
  refine ⟨x, ?_, hx, hval⟩
  simp only [List.nil_append, List.length_nil, Nat.zero_add] at hloop
  have hhead : ((chain s.num_vars s).headD default).num_vars = s.num_vars := by
    cases h : s.num_vars <;> simp [chain, reduce_on_fst, InequalitySystem.normalized] <;>
      exact h
  rw [recover_variables, reduce_system_eq, chain_length, hhead, Nat.add_sub_cancel, hloop]
  rfl

/-! ## Weighted sums and `compute_parents` -/

theorem wsum_nil_left (y : List ℚ) : wsum [] y = 0 := by simp [wsum]

theorem wsum_cons (t : ℚ) (a : List ℚ) (b : ℚ) (y : List ℚ) :
    wsum (t :: a) (b :: y) = t * b + wsum a y := by simp [wsum]

theorem wsum_replicate_zero (a : List ℚ) (n : Nat) : wsum a (List.replicate n 0) = 0 := by
  induction n generalizing a with
  | zero => simp [wsum]
  | succ n ih =>
    cases a with
    | nil => simp [wsum]
    | cons t a => rw [List.replicate_succ, wsum_cons, ih]; ring

theorem wsum_modify (a y : List ℚ) (np : Nat) (d : ℚ) (h : np < y.length) :
    wsum a (y.modify (fun r => r + d) np) = wsum a y + a.getD np 0 * d := by
  induction y generalizing a np with
  | nil => simp at h
  | cons b y ih =>
    cases a with
    | nil => simp [wsum_nil_left]
    | cons t a =>
      cases np with
      | zero => simp [List.modify_zero_cons, wsum_cons]; ring
      | succ np =>
        simp only [List.length_cons, add_lt_add_iff_right] at h
        rw [List.modify_succ_cons, wsum_cons, wsum_cons, ih a np h, List.getD_cons_succ]
        ring

theorem scatter_spec (a : List ℚ) (d : ℚ) (ps : List Nat) (ret : List ℚ)
    (h : ∀ np ∈ ps, np < ret.length) :
    (ps.foldl (fun ret np => ret.modify (fun r => r + d) np) ret).length = ret.length ∧
    wsum a (ps.foldl (fun ret np => ret.modify (fun r => r + d) np) ret) =
      wsum a ret + d * (ps.map fun np => a.getD np 0).sum := by
  induction ps generalizing ret with
  | nil => simp
  | cons np ps ih =>
    have h1 : np < ret.length := h np (List.mem_cons_self _ _)
    have h2 : ∀ n ∈ ps, n < (ret.modify (fun r => r + d) np).length := by
      intro n hn
      rw [List.length_modify]
      exact h n (List.mem_cons_of_mem _ hn)
    obtain ⟨hl, hw⟩ := ih (ret.modify (fun r => r + d) np) h2
    refine ⟨by rw [List.foldl_cons, hl, List.length_modify], ?_⟩
    rw [List.foldl_cons, hw, wsum_modify a ret np d h1, List.map_cons, List.sum_cons]
    ring

theorem scatter_nonneg (d : ℚ) (hd : 0 ≤ d) (ps : List Nat) (ret : List ℚ)
    (h : ∀ t ∈ ret, 0 ≤ t) :
    ∀ t ∈ ps.foldl (fun ret np => ret.modify (fun r => r + d) np) ret, 0 ≤ t := by
  induction ps generalizing ret with
  | nil => simpa using h
  | cons np ps ih =>
    rw [List.foldl_cons]
    apply ih
    intro t ht
    obtain ⟨n, hn⟩ := List.mem_iff_getElem?.mp ht
    rw [List.getElem?_modify] at hn
    rcases hr : ret[n]? with _ | r
    · rw [hr] at hn; simp at hn
    · rw [hr] at hn
      have hr0 : 0 ≤ r := h r (List.mem_iff_getElem?.mpr ⟨n, hr⟩)
      simp only [Option.map_eq_map, Option.map_some', Option.some.injEq] at hn
      by_cases hnp : np = n
      · rw [if_pos hnp] at hn; rw [← hn]; exact add_nonneg hr0 hd
      · rw [if_neg hnp] at hn; rw [← hn]; exact hr0

/-- The outer loop of `compute_parents`, over an arbitrary list of child indices. -/
theorem gather_spec (sys : InequalitySystem) (w a : List ℚ) (l : List Nat) (ret : List ℚ)
    (h : ∀ p ∈ l, ∀ np ∈ sys.get_parents p, np < ret.length) :
    (l.foldl (fun ret p => (sys.get_parents p).foldl
        (fun ret np => ret.modify (fun r => r + w.getD p 0 / sys.get_scaling_factor p) np)
        ret) ret).length = ret.length ∧
    wsum a (l.foldl (fun ret p => (sys.get_parents p).foldl
        (fun ret np => ret.modify (fun r => r + w.getD p 0 / sys.get_scaling_factor p) np)
        ret) ret) =
      wsum a ret + (l.map fun p => w.getD p 0 / sys.get_scaling_factor p *
        ((sys.get_parents p).map fun np => a.getD np 0).sum).sum := by
  induction l generalizing ret with
  | nil => simp
  | cons p l ih =>
    obtain ⟨hl1, hw1⟩ := scatter_spec a (w.getD p 0 / sys.get_scaling_factor p)
      (sys.get_parents p) ret (h p (List.mem_cons_self _ _))
    have h2 : ∀ p' ∈ l, ∀ np ∈ sys.get_parents p', np <
        ((sys.get_parents p).foldl (fun ret np =>
          ret.modify (fun r => r + w.getD p 0 / sys.get_scaling_factor p) np) ret).length := by
      intro p' hp' np hnp
      rw [hl1]
      exact h p' (List.mem_cons_of_mem _ hp') np hnp
    obtain ⟨hl2, hw2⟩ := ih _ h2
    refine ⟨by rw [List.foldl_cons, hl2, hl1], ?_⟩
    rw [List.foldl_cons, hw2, hw1, List.map_cons, List.sum_cons]
    ring

theorem gather_nonneg (sys : InequalitySystem) (w : List ℚ) (l : List Nat) (ret : List ℚ)
    (hd : ∀ p ∈ l, 0 ≤ w.getD p 0 / sys.get_scaling_factor p)
    (h : ∀ t ∈ ret, 0 ≤ t) :
    ∀ t ∈ l.foldl (fun ret p => (sys.get_parents p).foldl
        (fun ret np => ret.modify (fun r => r + w.getD p 0 / sys.get_scaling_factor p) np)
        ret) ret, 0 ≤ t := by
  induction l generalizing ret with
  | nil => simpa using h
  | cons p l ih =>
    rw [List.foldl_cons]
    apply ih
    · intro p' hp'; exact hd p' (List.mem_cons_of_mem _ hp')
    · exact scatter_nonneg _ (hd p (List.mem_cons_self _ _)) _ _ h

theorem wsum_eq_sum_range (a y : List ℚ) :
    wsum a y = ((List.range y.length).map fun p => y.getD p 0 * a.getD p 0).sum := by
  induction y generalizing a with
  | nil => simp [wsum]
  | cons b y ih =>
    cases a with
    | nil => simp [wsum]
    | cons t a =>
      rw [wsum_cons, ih a, List.length_cons, List.range_succ_eq_map, List.map_cons,
        List.sum_cons, List.map_map]
      simp [Function.comp_def, mul_comm]

theorem compute_parents_length (sys : InequalitySystem) (w : List ℚ) (n : Nat)
    (h : ∀ p, p < w.length → ∀ np ∈ sys.get_parents p, np < n) :
    (compute_parents sys w n).length = n := by
  have := (gather_spec sys w [] (List.range w.length) (List.replicate n 0)
    (by intro p hp np hnp; rw [List.length_replicate]; exact h p (List.mem_range.mp hp) np hnp)).1
  rw [List.length_replicate] at this
  exact this

theorem compute_parents_nonneg (sys : InequalitySystem) (w : List ℚ) (n : Nat)
    (hw : ∀ t ∈ w, 0 ≤ t) (hsf : ∀ p, p < w.length → 0 < sys.get_scaling_factor p) :
    ∀ t ∈ compute_parents sys w n, 0 ≤ t := by
  apply gather_nonneg
  · intro p hp
    rw [List.mem_range] at hp
    apply div_nonneg _ (hsf p hp).le
    rw [List.getD_eq_getElem _ _ hp]
    exact hw _ (List.getElem_mem hp)
  · intro t ht
    rw [List.eq_of_mem_replicate ht]

/-- Pushing weights back through `compute_parents` keeps a weighted sum whenever the
value attached to every child is the sum of the values of its parents divided by
the child's scaling factor. -/
theorem compute_parents_wsum (sys : InequalitySystem) (w a a' : List ℚ) (n : Nat)
    (hpar : ∀ p, p < w.length → ∀ np ∈ sys.get_parents p, np < n)
    (hprov : ∀ p, p < w.length →
      a'.getD p 0 = ((sys.get_parents p).map fun np => a.getD np 0).sum /
        sys.get_scaling_factor p) :
    wsum a (compute_parents sys w n) = wsum a' w := by
  have := (gather_spec sys w a (List.range w.length) (List.replicate n 0)
    (by intro p hp np hnp; rw [List.length_replicate]; exact hpar p (List.mem_range.mp hp) np hnp)).2
  rw [compute_parents, this, wsum_replicate_zero, zero_add, wsum_eq_sum_range]
  congr 1
  apply List.map_congr_left
  intro p hp
  rw [hprov p (List.mem_range.mp hp)]
  ring

/-! ## Provenance of the eliminated system -/

theorem getD_eraseIdx_of_lt (l : List ℚ) (k j : Nat) (h : j < k) :
    (l.eraseIdx k).getD j 0 = l.getD j 0 := by
  rw [List.getD_eq_getElem?_getD, List.getD_eq_getElem?_getD, List.getElem?_eraseIdx,
    if_pos h]

theorem getD_zipWith_add (c1 c2 : List ℚ) (j : Nat) (h : c1.length = c2.length) :
    (List.zipWith (· + ·) c1 c2).getD j 0 = c1.getD j 0 + c2.getD j 0 := by
  induction c1 generalizing c2 j with
  | nil =>
    cases c2 with
    | nil => simp
    | cons b c2 => simp at h
  | cons a c1 ih =>
    cases c2 with
    | nil => simp at h
    | cons b c2 =>
      simp only [List.length_cons, add_left_inj] at h
      cases j with
      | zero => simp
      | succ j => simpa using ih c2 j h

theorem prov_created (s : InequalitySystem) (k : Nat) (hwf : WellFormed s) :
    Prov (s.normalized k) (s.reduce_on k).2 k := by
  intro q hq
  have hlen : ∀ i, i < s.ineqs.length →
      ((s.normalized k).ineq i).coeffs.length = s.num_vars := by
    intro i hi
    rw [normalized_ineq s k i hi, norm_ineq_length, hwf.length_ineq i hi]
  rw [normalized_length]
  rcases (mem_reduce_on_snd s k q).mp hq with ⟨p, hp, m, hm, rfl⟩ | ⟨z, hz, rfl⟩
  · rw [mem_partition] at hp hm
    refine ⟨?_, ?_, ?_, ?_, ?_⟩
    · intro np hnp
      simp only [Inequality.combine, List.mem_cons, List.mem_singleton, List.not_mem_nil,
        or_false] at hnp
      rcases hnp with rfl | rfl
      · exact hp.1
      · exact hm.1
    · simp [Inequality.combine]
    · simp [Inequality.combine]
    · intro j hj
      simp only [Inequality.combine, List.map_cons, List.map_nil, List.sum_cons,
        List.sum_nil, add_zero, div_one]
      rw [getD_eraseIdx_of_lt _ _ _ hj,
        getD_zipWith_add _ _ _ ((hlen p hp.1).trans (hlen m hm.1).symm)]
    · simp only [Inequality.combine, List.map_cons, List.map_nil, List.sum_cons,
        List.sum_nil, add_zero]
      rw [normalized_ineq s k p hp.1, normalized_ineq s k m hm.1,
        norm_getD_of_pos k _ hp.2, norm_getD_of_neg k _ hm.2]
      ring
  · rw [mem_partition] at hz
    refine ⟨?_, ?_, ?_, ?_, ?_⟩
    · intro np hnp
      simp only [Inequality.drop_one, List.mem_singleton] at hnp
      rw [hnp]; exact hz.1
    · simp [Inequality.drop_one]
    · simp [Inequality.drop_one]
    · intro j hj
      simp only [Inequality.drop_one, List.map_cons, List.map_nil, List.sum_cons,
        List.sum_nil, add_zero, div_one]
      rw [getD_eraseIdx_of_lt _ _ _ hj]
    · simp only [Inequality.drop_one, List.map_cons, List.map_nil, List.sum_cons,
        List.sum_nil, add_zero]
      rw [normalized_ineq s k z hz.1, norm_getD_of_zero k _ hz.2]

theorem prov_normalized (par child : InequalitySystem) (k k' : Nat)
    (h : Prov par child k) : Prov par (child.normalized k') k := by
  intro q hq
  rw [normalized_ineqs, List.mem_map] at hq
  obtain ⟨q0, hq0, rfl⟩ := hq
  obtain ⟨h1, h2, h3, h4, h5⟩ := h q0 hq0
  rw [norm_ineq_eq_scale]
  have ha := norm_factor_pos k' q0
  generalize (if q0.coeffs.getD k' 0 = 0 then (1 : ℚ) else 1 / |q0.coeffs.getD k' 0|) = a
    at ha
  refine ⟨h1, div_pos h2 ha, ?_, ?_, h5⟩
  · simp only [Inequality.scale]
    rw [div_div_eq_mul_div, h3]
    ring
  · intro j hj
    simp only [Inequality.scale, getD_map_mul]
    rw [div_div_eq_mul_div, h4 j hj]
    ring

theorem prov_stored (s : InequalitySystem) (k i : Nat) (hwf : WellFormed s) :
    Prov (s.normalized k) (stored i (s.reduce_on k).2) k := by
  cases i with
  | zero => exact prov_created s k hwf
  | succ i => exact prov_normalized _ _ _ _ (prov_created s k hwf)

theorem stored_length (i : Nat) (s : InequalitySystem) :
    (stored i s).ineqs.length = s.ineqs.length := by
  cases i with
  | zero => rfl
  | succ i => exact normalized_length s i

theorem stored_num_vars (i : Nat) (s : InequalitySystem) :
    (stored i s).num_vars = s.num_vars := by
  cases i <;> rfl

theorem stored_num_ineqs (i : Nat) (s : InequalitySystem) :
    (stored i s).num_ineqs = s.num_ineqs := by
  cases i <;> rfl

theorem stored_is_valid (i : Nat) (s : InequalitySystem) (x : List ℚ) :
    (stored i s).is_valid x = s.is_valid x := by
  cases i with
  | zero => rfl
  | succ i => exact normalized_is_valid s i x

theorem chain_eq_cons (i : Nat) (s : InequalitySystem) :
    chain i s = stored i s :: (chain i s).tail := by
  cases i <;> rfl

theorem chain_headD (i : Nat) (s d : InequalitySystem) :
    (chain i s).headD d = stored i s := by
  cases i <;> rfl

theorem getD_map_ineq (s : InequalitySystem) (f : Inequality → ℚ) (i : Nat)
    (hi : i < s.ineqs.length) : (s.ineqs.map f).getD i 0 = f (s.ineq i) := by
  rw [List.getD_eq_getElem _ _ (by simpa using hi), InequalitySystem.ineq,
    List.getD_eq_getElem _ _ hi, List.getElem_map]

/-- One backward step of the certificate reconstruction keeps a weighted sum. -/
theorem compute_parents_prov (par child : InequalitySystem) (k : Nat) (w : List ℚ)
    (hprov : Prov par child k) (hw : w.length = child.ineqs.length) :
    (compute_parents child w par.ineqs.length).length = par.ineqs.length ∧
    ((∀ t ∈ w, 0 ≤ t) → ∀ t ∈ compute_parents child w par.ineqs.length, 0 ≤ t) ∧
    wsum (par.ineqs.map fun q => q.rhs) (compute_parents child w par.ineqs.length) =
      wsum (child.ineqs.map fun q => q.rhs) w ∧
    (∀ j, j < k →
      wsum (par.ineqs.map fun q => q.coeffs.getD j 0)
        (compute_parents child w par.ineqs.length) =
      wsum (child.ineqs.map fun q => q.coeffs.getD j 0) w) ∧
    wsum (par.ineqs.map fun q => q.coeffs.getD k 0)
      (compute_parents child w par.ineqs.length) = 0 := by
  have hq : ∀ p, p < w.length → child.ineq p ∈ child.ineqs := by
    intro p hp; exact ineq_mem child p (hw ▸ hp)
  have hpar : ∀ p, p < w.length → ∀ np ∈ child.get_parents p, np < par.ineqs.length := by
    intro p hp np hnp
    exact (hprov _ (hq p hp)).1 np hnp
  have hsum : ∀ (f : Inequality → ℚ) p, p < w.length →
      ((child.get_parents p).map fun np => (par.ineqs.map f).getD np 0) =
        ((child.ineq p).parents.map fun np => f (par.ineq np)) := by
    intro f p hp
    apply List.map_congr_left
    intro np hnp
    exact getD_map_ineq par f np (hpar p hp np hnp)
  refine ⟨compute_parents_length _ _ _ hpar, ?_, ?_, ?_, ?_⟩
  · intro hw0
    apply compute_parents_nonneg _ _ _ hw0
    intro p hp
    exact (hprov _ (hq p hp)).2.1
  · apply compute_parents_wsum _ _ _ _ _ hpar
    intro p hp
    rw [hsum _ p hp, getD_map_ineq child _ p (hw ▸ hp)]
    exact (hprov _ (hq p hp)).2.2.1
  · intro j hj
    apply compute_parents_wsum _ _ _ _ _ hpar
    intro p hp
    rw [hsum _ p hp, getD_map_ineq child _ p (hw ▸ hp)]
    exact (hprov _ (hq p hp)).2.2.2.1 j hj
  · rw [compute_parents_wsum child w _ [] _ hpar, wsum_nil_left]
    intro p hp
    rw [hsum _ p hp, (hprov _ (hq p hp)).2.2.2.2]
    simp

/-! ## The backward pass that builds the certificate -/

theorem check_counterexample_iff (s : InequalitySystem) (y : List ℚ) :
    s.check_counterexample y = true ↔ Farkas s y := by
  simp [InequalitySystem.check_counterexample, Farkas, wsum, inner_product_eq_sum,
    List.zipWith_map_left]

theorem terminal_wf (i : Nat) (s : InequalitySystem) (hwf : WellFormed s)
    (hn : s.num_vars = i) :
    WellFormed (terminal i s) ∧ (terminal i s).num_vars = 0 := by
  induction i generalizing s with
  | zero => exact ⟨hwf, hn⟩
  | succ i ih =>
    exact ih _ (reduce_on_wf s i hwf (by omega)) (by rw [reduce_on_snd_num_vars]; omega)

theorem find_invalid_spec (s : InequalitySystem) (x : List ℚ)
    (h : s.is_valid x = false) :
    s.find_invalid x < s.ineqs.length ∧
      (s.ineq (s.find_invalid x)).is_valid x = false ∧
      ∀ j, j < s.find_invalid x → (s.ineq j).is_valid x = true := by
  have hex : ∃ q ∈ s.ineqs, (!q.is_valid x) = true := by
    by_contra hcon
    have : s.is_valid x = true := by
      rw [InequalitySystem.is_valid, List.all_eq_true]
      intro q hq
      by_contra hq2
      exact hcon ⟨q, hq, by simpa using hq2⟩
    rw [h] at this
    exact absurd this (by simp)
  have hlt : s.find_invalid x < s.ineqs.length := List.findIdx_lt_length.mpr hex
  refine ⟨hlt, ?_, ?_⟩
  · have hlt2 : List.findIdx (fun q => !q.is_valid x) s.ineqs < s.ineqs.length := hlt
    have := @List.findIdx_getElem _ (fun q => !q.is_valid x) s.ineqs hlt2
    rw [InequalitySystem.ineq, List.getD_eq_getElem _ _ hlt]
    simpa [InequalitySystem.find_invalid] using this
  · intro j hj
    have hj2 : j < s.ineqs.length := lt_trans hj hlt
    have hj3 : j < List.findIdx (fun q => !q.is_valid x) s.ineqs := hj
    have := @List.not_of_lt_findIdx _ (fun q => !q.is_valid x) s.ineqs j hj3
    rw [InequalitySystem.ineq, List.getD_eq_getElem _ _ hj2]
    simpa using this

theorem seed_spec (s : InequalitySystem) (hwf : WellFormed s) (hn : s.num_vars = 0)
    (h : s.is_valid [] = false) :
    (seed s).length = s.ineqs.length ∧ (∀ t ∈ seed s, 0 ≤ t) ∧ Farkas s (seed s) := by
  obtain ⟨hlt, hinv, _⟩ := find_invalid_spec s [] h
  refine ⟨?_, ?_, ?_, ?_⟩
  · simp [seed, hwf.2]
  · exact scatter_nonneg 1 zero_le_one [s.find_invalid []] _
      (by intro t ht; rw [List.eq_of_mem_replicate ht])
  · rw [seed, wsum_modify _ _ _ _ (by rw [List.length_replicate, hwf.2]; exact hlt),
      wsum_replicate_zero, getD_map_ineq s _ _ hlt]
    have : ¬ (dot (s.ineq (s.find_invalid [])).coeffs [] ≤ (s.ineq (s.find_invalid [])).rhs) := by
      rw [← is_valid_iff, hinv]; simp
    rw [dot_nil_right] at this
    linarith
  · intro j hj
    omega

theorem counter_example_loop_append (l : List InequalitySystem) (c a : InequalitySystem)
    (w : List ℚ) :
    counter_example_loop (l ++ [c, a]) w =
      compute_parents c (counter_example_loop (l ++ [c]) w) a.num_ineqs := by
  induction l generalizing w with
  | nil => simp [counter_example_loop]
  | cons b l ih =>
    cases l with
    | nil => simp [counter_example_loop]
    | cons d l => simpa [counter_example_loop] using ih (compute_parents b w d.num_ineqs)

theorem certificate_chain (i : Nat) (s : InequalitySystem) (hwf : WellFormed s)
    (hn : s.num_vars = i) (hT : (terminal i s).is_valid [] = false) :
    (counter_example_loop (chain i s).reverse (seed (terminal i s))).length =
        s.ineqs.length ∧
    (∀ t ∈ counter_example_loop (chain i s).reverse (seed (terminal i s)), 0 ≤ t) ∧
    Farkas (stored i s) (counter_example_loop (chain i s).reverse (seed (terminal i s))) := by
  induction i generalizing s with
  | zero =>
    simpa [chain, counter_example_loop, terminal, stored] using seed_spec s hwf hn hT
  | succ i ih =>
    have hk : i < s.num_vars := by omega
    have hR := reduce_on_wf s i hwf hk
    have hRn : (s.reduce_on i).2.num_vars = i := by rw [reduce_on_snd_num_vars]; omega
    obtain ⟨hlen, hnn, hF⟩ := ih (s.reduce_on i).2 hR hRn hT
    have hrev : (chain (i + 1) s).reverse =
        (chain i (s.reduce_on i).2).tail.reverse ++
          [stored i (s.reduce_on i).2, s.normalized i] := by
      rw [chain, List.reverse_cons, chain_eq_cons i (s.reduce_on i).2, List.reverse_cons,
        reduce_on_fst]
      simp
    have hrev2 : (chain i (s.reduce_on i).2).tail.reverse ++ [stored i (s.reduce_on i).2] =
        (chain i (s.reduce_on i).2).reverse := by
      conv_rhs => rw [chain_eq_cons i (s.reduce_on i).2, List.reverse_cons]
    have hni : (s.normalized i).num_ineqs = (s.normalized i).ineqs.length := by
      rw [normalized_length]; exact hwf.2
    have hterm : terminal (i + 1) s = terminal i (s.reduce_on i).2 := rfl
    rw [hrev, counter_example_loop_append, hrev2, hni, hterm]
    show _ ∧ _ ∧ Farkas (s.normalized i) _
    have hw : (counter_example_loop (chain i (s.reduce_on i).2).reverse
        (seed (terminal i (s.reduce_on i).2))).length =
          (stored i (s.reduce_on i).2).ineqs.length := by
      rw [hlen, stored_length]
    obtain ⟨c1, c2, c3, c4, c5⟩ := compute_parents_prov (s.normalized i)
      (stored i (s.reduce_on i).2) i _ (prov_stored s i i hwf) hw
    refine ⟨by rw [c1, normalized_length], c2 hnn, ?_, ?_⟩
    · rw [c3]; exact hF.1
    · intro j hj
      have hj2 : j < i + 1 := by
        have : (s.normalized i).num_vars = s.num_vars := rfl
        omega
      rcases Nat.lt_succ_iff_lt_or_eq.mp hj2 with hlt | heq
      · rw [c4 j hlt]
        exact hF.2 j (by rw [stored_num_vars, hRn]; exact hlt)
      · rw [heq]; exact c5

theorem compute_counter_example_eq (s : InequalitySystem) :
    compute_counter_example (reduce_system s) =
      counter_example_loop (chain s.num_vars s).reverse (seed (terminal s.num_vars s)) := by
  rw [compute_counter_example, reduce_system_eq, chain_getLastD]
  rfl

theorem scale_one (q : Inequality) : q.scale 1 = q := by
  cases q; simp [Inequality.scale]

theorem norm_ineq_idem (k : Nat) (q : Inequality) :
    norm_ineq k (norm_ineq k q) = norm_ineq k q := by
  rw [norm_ineq_eq_scale k (norm_ineq k q), norm_ineq_getD]
  have : (if (if q.coeffs.getD k 0 = 0 then (0 : ℚ)
        else if 0 < q.coeffs.getD k 0 then 1 else -1) = 0 then (1 : ℚ)
      else 1 / |if q.coeffs.getD k 0 = 0 then (0 : ℚ)
        else if 0 < q.coeffs.getD k 0 then 1 else -1|) = 1 := by
    generalize q.coeffs.getD k 0 = c
    by_cases h : c = 0
    · simp [h]
    · by_cases h2 : 0 < c <;> simp [h, h2]
  rw [this, scale_one]

theorem normalized_eq (s : InequalitySystem) (k : Nat) :
    s.normalized k = ⟨s.ineqs.map (norm_ineq k), s.num_vars, s.num_ineqs⟩ := by
  have h := normalized_ineqs s k
  cases s
  simp only [InequalitySystem.normalized] at h ⊢
  rw [h]

theorem normalized_idem (s : InequalitySystem) (k : Nat) :
    (s.normalized k).normalized k = s.normalized k := by
  rw [normalized_eq (s.normalized k) k, normalized_eq s k]
  simp [norm_ineq_idem]

theorem reduce_on_normalized (s : InequalitySystem) (k : Nat) :
    (s.normalized k).reduce_on k = (s.normalized k, (s.reduce_on k).2) := by
  have hp : (s.normalized k).partition k = s.partition k :=
    funext fun sg => partition_normalized s k sg
  simp only [InequalitySystem.reduce_on, hp, normalized_idem]
  rfl

theorem reduce_on_stored (i : Nat) (s : InequalitySystem) :
    (stored (i + 1) s).reduce_on i = (stored (i + 1) s, (s.reduce_on i).2) :=
  reduce_on_normalized s i

theorem chain_getD_num_vars (n : Nat) (s : InequalitySystem) (i : Nat) (hi : i ≤ n) :
    ((chain n s).getD i default).num_vars = s.num_vars - i := by
  induction n generalizing s i with
  | zero =>
    have : i = 0 := by omega
    subst this; rfl
  | succ n ih =>
    cases i with
    | zero => rfl
    | succ i =>
      rw [chain, List.getD_cons_succ, ih _ i (by omega), reduce_on_snd_num_vars]
      omega

theorem chain_getD_step (n : Nat) (s : InequalitySystem) (i : Nat) (hi : i < n) :
    (chain n s).getD (i + 1) default =
        stored (n - i - 1) (((chain n s).getD i default).reduce_on (n - i - 1)).2 ∧
      (((chain n s).getD i default).reduce_on (n - i - 1)).1 =
        (chain n s).getD i default := by
  induction n generalizing s i with
  | zero => omega
  | succ n ih =>
    cases i with
    | zero =>
      have h0 : (chain (n + 1) s).getD 0 default = stored (n + 1) s := rfl
      have h1 : (chain (n + 1) s).getD (0 + 1) default = stored n (s.reduce_on n).2 := by
        rw [chain, List.getD_cons_succ, chain_eq_cons]
        rfl
      have hn : n + 1 - 0 - 1 = n := by omega
      rw [h0, h1, hn, reduce_on_stored]
      exact ⟨rfl, rfl⟩
    | succ i =>
      have hn : n + 1 - (i + 1) - 1 = n - i - 1 := by omega
      rw [hn]
      have := ih (s.reduce_on n).2 i (by omega)
      rw [chain, List.getD_cons_succ, List.getD_cons_succ]
      exact this

theorem modify_replicate_zero (n i : Nat) :
    (List.replicate n (0 : ℚ)).modify (fun r => r + 1) i =
      (List.range n).map fun j => if j = i then (1 : ℚ) else 0 := by
  apply List.ext_getElem?
  intro j
  rw [List.getElem?_modify, List.getElem?_replicate, List.getElem?_map]
  by_cases hj : j < n
  · rw [if_pos hj, List.getElem?_range hj]
    by_cases hij : i = j
    · subst hij; simp
    · have hji : ¬ j = i := fun h => hij h.symm
      simp [hij, hji]
  · rw [if_neg hj, List.getElem?_eq_none (by simpa using hj)]
    rfl

/-! ## The claims -/

theorem last_eq_terminal (S : InequalitySystem) :
    (reduce_system S).getLastD default = terminal S.num_vars S := by
  rw [reduce_system_eq, chain_getLastD]

/-- C1: for a well-formed system `S` with `N` variables the orchestrator returns a
certificate, and its flag `valid` is `true` exactly when some vector of length `N`
satisfies every constraint of `S`; equivalently the last system of the chain is
satisfied by the empty vector exactly when `S` is feasible. -/
theorem C1_fourier_motzkin_decides (S : InequalitySystem) (hwf : WellFormed S) :
    (∃ c, fourier_motzkin S = some c ∧
      (c.valid = true ↔ ∃ x : List ℚ, x.length = S.num_vars ∧ S.is_valid x = true)) ∧
    (((reduce_system S).getLastD default).is_valid [] = true ↔
      ∃ x : List ℚ, x.length = S.num_vars ∧ S.is_valid x = true) := by
  have hiff := terminal_valid_iff S.num_vars S hwf rfl
  refine ⟨?_, by rw [last_eq_terminal]; exact hiff⟩
  by_cases hT : (terminal S.num_vars S).is_valid [] = true
  · obtain ⟨x, hx, hlen, hval⟩ := recover_variables_spec S hwf hT
    refine ⟨⟨x, true⟩, ?_, ?_⟩
    · simp only [fourier_motzkin, last_eq_terminal, hT, hx]
      rfl
    · simpa using hiff.mp hT
  · refine ⟨⟨compute_counter_example (reduce_system S), false⟩, ?_, ?_⟩
    · have hF : (terminal S.num_vars S).is_valid [] = false := by simpa using hT
      simp only [fourier_motzkin, last_eq_terminal, hF]
      rfl
    · simpa using fun h => hT (hiff.mpr h)

theorem C1_fourier_motzkin_decides_witness :
    WellFormed scenarioB ∧
    ((∃ c, fourier_motzkin scenarioB = some c ∧
      (c.valid = true ↔
        ∃ x : List ℚ, x.length = scenarioB.num_vars ∧ scenarioB.is_valid x = true)) ∧
    (((reduce_system scenarioB).getLastD default).is_valid [] = true ↔
      ∃ x : List ℚ, x.length = scenarioB.num_vars ∧ scenarioB.is_valid x = true)) :=
  ⟨by decide, C1_fourier_motzkin_decides scenarioB (by decide)⟩

/-- C2: round-trip feasibility.  For a well-formed system `S` with `N` variables whose
last chain element is feasible, `recover_variables(reduce_system(S))` returns a
vector of length `N` (entry `k` is the value of variable `k`) that satisfies every
constraint of `S`. -/
theorem C2_round_trip_feasibility (S : InequalitySystem) (hwf : WellFormed S)
    (hfeas : ((reduce_system S).getLastD default).is_valid [] = true) :
    ∃ x, recover_variables (reduce_system S) = some x ∧ x.length = S.num_vars ∧
      S.is_valid x = true := by
  rw [last_eq_terminal] at hfeas
  exact recover_variables_spec S hwf hfeas

theorem C2_round_trip_feasibility_witness :
    WellFormed scenarioB ∧
    ((reduce_system scenarioB).getLastD default).is_valid [] = true ∧
    ∃ x, recover_variables (reduce_system scenarioB) = some x ∧
      x.length = scenarioB.num_vars ∧ scenarioB.is_valid x = true :=
  ⟨by decide, by decide!,
    C2_round_trip_feasibility scenarioB (by decide) (by decide!)⟩

/-- C3, evaluated on `x ≤ -1`, `-2x ≤ -2`: the input is well-formed and its last chain
element is infeasible, the returned vector is `[1, 1]`, and `check_counterexample`
of the input on it is `false` (`1·1 + 1·(-2) ≠ 0`), whereas `[1, 1/2]` passes. -/
theorem C3_certificate_fails_on_input :
    WellFormed scenarioA_doubled ∧
    ((reduce_system scenarioA_doubled).getLastD default).is_valid [] = false ∧
    compute_counter_example (reduce_system scenarioA_doubled) = [1, 1] ∧
    scenarioA_doubled.check_counterexample [1, 1] = false ∧
    scenarioA_doubled.check_counterexample [1, 1 / 2] = true := by
  refine ⟨by decide, by decide!, by decide!, by decide!, by decide!⟩

/-- C5: Fourier–Motzkin projection is exact.  For a well-formed system `S` with
`N ≥ 1` variables, an index `k < N` and a vector `x'` of length `N − 1`, the system
returned by `S.reduce_on(k)` is satisfied by `x'` if and only if `S` is satisfied by
`x'` with some value `v` inserted at position `k`. -/
theorem C5_projection_exact (S : InequalitySystem) (k : Nat) (x' : List ℚ)
    (hwf : WellFormed S) (hN : 1 ≤ S.num_vars) (hk : k < S.num_vars)
    (hx : x'.length = S.num_vars - 1) :
    (S.reduce_on k).2.is_valid x' = true ↔
      ∃ v, S.is_valid (x'.insertIdx k v) = true :=
  reduce_on_exact S k hwf x' (by omega) hk

theorem C5_projection_exact_witness :
    WellFormed scenarioB ∧ 1 ≤ scenarioB.num_vars ∧ 0 < scenarioB.num_vars ∧
    [(1 : ℚ)].length = scenarioB.num_vars - 1 ∧
    ((scenarioB.reduce_on 0).2.is_valid [1] = true ↔
      ∃ v, scenarioB.is_valid ([1].insertIdx 0 v) = true) :=
  ⟨by decide, by decide, by decide, by decide,
    C5_projection_exact scenarioB 0 [1] (by decide) (by decide) (by decide) (by decide)⟩

/-- C6: the growth law.  For a system `S` with `N ≥ 1` variables and `k < N`, with
`Zero`, `Positive`, `Negative` the lists of `partition(k)`: the system returned by
`S.reduce_on(k)` has declared and stored constraint count
`|Zero| + |Positive|·|Negative|`, and `|Zero| + |Positive| + |Negative|` is the
number of constraints of `S`. -/
theorem C6_growth_law (S : InequalitySystem) (k : Nat) (_hN : 1 ≤ S.num_vars)
    (_hk : k < S.num_vars) :
    (S.reduce_on k).2.num_ineqs =
      (S.partition k Sign.Zero).length +
        (S.partition k Sign.Positive).length * (S.partition k Sign.Negative).length ∧
    (S.reduce_on k).2.ineqs.length =
      (S.partition k Sign.Zero).length +
        (S.partition k Sign.Positive).length * (S.partition k Sign.Negative).length ∧
    (S.partition k Sign.Zero).length + (S.partition k Sign.Positive).length +
      (S.partition k Sign.Negative).length = S.ineqs.length :=
  ⟨rfl, reduce_on_snd_length S k, partition_lengths S k⟩

theorem C6_growth_law_witness :
    1 ≤ scenarioB.num_vars ∧ 1 < scenarioB.num_vars ∧
    (scenarioB.reduce_on 1).2.ineqs.length =
      (scenarioB.partition 1 Sign.Zero).length +
        (scenarioB.partition 1 Sign.Positive).length *
          (scenarioB.partition 1 Sign.Negative).length :=
  ⟨by decide, by decide, (C6_growth_law scenarioB 1 (by decide) (by decide)).2.1⟩

/-- C8: zero-variable inputs.  For a well-formed system with no variables the chain is
the input alone; when every right-hand side is `≥ 0` (in particular when there is
no constraint) the solver returns `valid = true` with the empty vector; otherwise it
returns `valid = false` with the vector, one entry per constraint, that is `1` at
the first index `i` with `rhs_i < 0` and `0` elsewhere. -/
theorem C8_zero_variables (S : InequalitySystem) (hwf : WellFormed S)
    (h0 : S.num_vars = 0) :
    reduce_system S = [S] ∧
    ((∀ q ∈ S.ineqs, 0 ≤ q.rhs) → fourier_motzkin S = some ⟨[], true⟩) ∧
    (¬ (∀ q ∈ S.ineqs, 0 ≤ q.rhs) →
      ∃ i, i < S.ineqs.length ∧ (S.ineq i).rhs < 0 ∧
        (∀ j, j < i → 0 ≤ (S.ineq j).rhs) ∧
        fourier_motzkin S =
          some ⟨(List.range S.ineqs.length).map fun j => if j = i then 1 else 0, false⟩) := by
  have hchain : reduce_system S = [S] := by rw [reduce_system_eq, h0]; rfl
  have hvalid : S.is_valid [] = true ↔ ∀ q ∈ S.ineqs, 0 ≤ q.rhs := by
    rw [sys_is_valid_iff]
    simp only [dot_nil_right]
  have hq : ∀ q : Inequality, q.is_valid [] = true ↔ 0 ≤ q.rhs := by
    intro q; rw [is_valid_iff, dot_nil_right]
  refine ⟨hchain, ?_, ?_⟩
  · intro h
    have hv := hvalid.mpr h
    have hlast : ([S].getLastD default).is_valid [] = true := hv
    simp only [fourier_motzkin, hchain, hlast]
    rfl
  · intro h
    have hv : S.is_valid [] = false := by
      rcases hb : S.is_valid [] with _ | _
      · rfl
      · exact absurd (hvalid.mp hb) h
    obtain ⟨hlt, hinv, hbefore⟩ := find_invalid_spec S [] hv
    refine ⟨S.find_invalid [], hlt, ?_, ?_, ?_⟩
    · have : ¬ (0 ≤ (S.ineq (S.find_invalid [])).rhs) := by
        rw [← hq, hinv]; simp
      exact not_le.mp this
    · intro j hj
      exact (hq _).mp (hbefore j hj)
    · have hlast : ([S].getLastD default).is_valid [] = false := hv
      have hce : compute_counter_example [S] = seed S := rfl
      simp only [fourier_motzkin, hchain, hlast, hce, seed, hwf.2, modify_replicate_zero]
      rfl

theorem C8_zero_variables_witness :
    WellFormed scenarioD ∧ scenarioD.num_vars = 0 ∧
    ¬ (∀ q ∈ scenarioD.ineqs, 0 ≤ q.rhs) ∧
    (∀ q ∈ scenarioC.ineqs, 0 ≤ q.rhs) ∧
    fourier_motzkin scenarioC = some ⟨[], true⟩ ∧
    fourier_motzkin scenarioD = some ⟨[1], false⟩ ∧
    ∃ i, i < scenarioD.ineqs.length ∧ (scenarioD.ineq i).rhs < 0 ∧
      (∀ j, j < i → 0 ≤ (scenarioD.ineq j).rhs) ∧
      fourier_motzkin scenarioD =
        some ⟨(List.range scenarioD.ineqs.length).map fun j => if j = i then 1 else 0,
          false⟩ :=
  ⟨by decide, by decide, by decide!, by decide!,
    (C8_zero_variables scenarioC (by decide) (by decide)).2.1 (by decide!),
    by decide!,
    (C8_zero_variables scenarioD (by decide) (by decide)).2.2 (by decide!)⟩

/-- C10: the certificate is a Farkas vector for the first chain element as stored,
that is after elimination has rescaled its constraints in place: for a well-formed
input whose last chain element is infeasible, `steps.front().check_counterexample(y)`
is `true` for `steps = reduce_system(input)` and `y = compute_counter_example(steps)`,
i.e. `Σ_i y_i·rhs'_i < 0` and `Σ_i y_i·coeffs'_i[j] = 0` for every column `j`. -/
theorem C10_certificate_for_rescaled_front (S : InequalitySystem) (hwf : WellFormed S)
    (hinf : ((reduce_system S).getLastD default).is_valid [] = false) :
    ((reduce_system S).headD default).check_counterexample
        (compute_counter_example (reduce_system S)) = true ∧
    Farkas ((reduce_system S).headD default) (compute_counter_example (reduce_system S)) := by
  rw [last_eq_terminal] at hinf
  have hF := (certificate_chain S.num_vars S hwf rfl hinf).2.2
  rw [← compute_counter_example_eq, ← chain_headD S.num_vars S default,
    ← reduce_system_eq] at hF
  exact ⟨(check_counterexample_iff _ _).mpr hF, hF⟩

theorem C10_certificate_for_rescaled_front_witness :
    WellFormed scenarioA_doubled ∧
    ((reduce_system scenarioA_doubled).getLastD default).is_valid [] = false ∧
    ((reduce_system scenarioA_doubled).headD default).check_counterexample
        (compute_counter_example (reduce_system scenarioA_doubled)) = true :=
  ⟨by decide, by decide!,
    (C10_certificate_for_rescaled_front scenarioA_doubled (by decide) (by decide!)).1⟩

/-! ## Well-formedness of every chain element -/

theorem chain_mem_wf (n : Nat) (s : InequalitySystem) (hwf : WellFormed s)
    (hn : s.num_vars = n) : ∀ T ∈ chain n s, WellFormed T := by
  induction n generalizing s with
  | zero =>
    intro T hT
    simp only [chain, List.mem_singleton] at hT
    rw [hT]; exact hwf
  | succ n ih =>
    intro T hT
    rw [chain, List.mem_cons] at hT
    rcases hT with rfl | hT
    · exact normalized_wf s n hwf
    · exact ih _ (reduce_on_wf s n hwf (by omega))
        (by rw [reduce_on_snd_num_vars]; omega) T hT

theorem chain_getD_wf (n : Nat) (s : InequalitySystem) (hwf : WellFormed s)
    (hn : s.num_vars = n) (i : Nat) (hi : i ≤ n) :
    WellFormed ((chain n s).getD i default) := by
  apply chain_mem_wf n s hwf hn
  have hlt : i < (chain n s).length := by rw [chain_length]; omega
  rw [List.getD_eq_getElem _ _ hlt]
  exact List.getElem_mem hlt

/-! ## Soundness of a Farkas vector -/

theorem wsum_map_linear (rows : List (List ℚ)) (f g : List ℚ → ℚ) (b : ℚ) (y : List ℚ) :
    wsum (rows.map fun c => f c * b + g c) y =
      b * wsum (rows.map f) y + wsum (rows.map g) y := by
  induction rows generalizing y with
  | nil => simp [wsum]
  | cons c rows ih =>
    cases y with
    | nil => simp [wsum]
    | cons t y =>
      simp only [List.map_cons, wsum_cons, ih y]
      ring

theorem dot_cons_right (c : List ℚ) (b : ℚ) (x : List ℚ) :
    dot c (b :: x) = c.getD 0 0 * b + dot c.tail x := by
  cases c with
  | nil => simp [dot]
  | cons a c => simp [dot]

theorem wsum_map_zero (rows : List (List ℚ)) (y : List ℚ) :
    wsum (rows.map fun _ => (0 : ℚ)) y = 0 := by
  induction rows generalizing y with
  | nil => simp [wsum]
  | cons c rows ih =>
    cases y with
    | nil => simp [wsum]
    | cons t y => simp only [List.map_cons, wsum_cons, ih y]; ring

theorem wsum_dot_eq_zero (x : List ℚ) (rows : List (List ℚ)) (y : List ℚ)
    (h : ∀ j, j < x.length → wsum (rows.map fun c => c.getD j 0) y = 0) :
    wsum (rows.map fun c => dot c x) y = 0 := by
  induction x generalizing rows with
  | nil =>
    simp only [dot_nil_right]
    exact wsum_map_zero rows y
  | cons b x ih =>
    have h0 := h 0 (by simp)
    have hrec : wsum ((rows.map List.tail).map fun c => dot c x) y = 0 := by
      apply ih
      intro j hj
      have := h (j + 1) (by simpa using hj)
      rw [List.map_map]
      have heq : ((fun c : List ℚ => c.getD j 0) ∘ List.tail) =
          fun c : List ℚ => c.getD (j + 1) 0 := by
        funext c
        cases c <;> simp
      rw [heq]
      exact this
    rw [List.map_map] at hrec
    have hlin := wsum_map_linear rows (fun c => c.getD 0 0) (fun c => dot c.tail x) b y
    simp only [dot_cons_right]
    rw [hlin, h0]
    simp only [Function.comp_def] at hrec
    rw [hrec]
    ring

theorem wsum_map_le {α : Type} (rows : List α) (f g : α → ℚ) (y : List ℚ)
    (hy : ∀ t ∈ y, 0 ≤ t) (hfg : ∀ q ∈ rows, f q ≤ g q) :
    wsum (rows.map f) y ≤ wsum (rows.map g) y := by
  induction rows generalizing y with
  | nil => simp [wsum]
  | cons c rows ih =>
    cases y with
    | nil => simp [wsum]
    | cons t y =>
      simp only [List.map_cons, wsum_cons]
      have h1 := ih y (fun t ht => hy t (List.mem_cons_of_mem _ ht))
        (fun q hq => hfg q (List.mem_cons_of_mem _ hq))
      have h2 := hfg c (List.mem_cons_self _ _)
      have h3 := hy t (List.mem_cons_self _ _)
      have h4 := mul_le_mul_of_nonneg_right h2 h3
      linarith

theorem farkas_excludes_solution (s : InequalitySystem) (x y : List ℚ)
    (hx : x.length = s.num_vars) (hval : s.is_valid x = true)
    (hy : ∀ t ∈ y, 0 ≤ t) (hF : Farkas s y) : False := by
  have h1 : wsum (s.ineqs.map fun q => dot q.coeffs x) y ≤
      wsum (s.ineqs.map fun q => q.rhs) y :=
    wsum_map_le s.ineqs _ _ y hy ((sys_is_valid_iff s x).mp hval)
  have h2 : wsum ((s.ineqs.map fun q => q.coeffs).map fun c => dot c x) y = 0 := by
    apply wsum_dot_eq_zero
    intro j hj
    rw [List.map_map]
    exact hF.2 j (hx ▸ hj)
  rw [List.map_map] at h2
  simp only [Function.comp_def] at h2
  rw [h2] at h1
  exact absurd hF.1 (not_lt.mpr h1)

/-! ## The claims, continued -/

/-- C16: well-formedness is preserved by elimination.  If every constraint of `S` has
`S.num_vars()` coefficients, `S.num_ineqs()` is the number of stored constraints and
`S.num_vars() ≥ 1`, then for every `k < S.num_vars()` the system `R = S.reduce_on(k)`
has `S.num_vars() − 1` variables, every constraint of `R` has `R.num_vars()`
coefficients and `R.num_ineqs()` is the number of constraints stored in `R`; and every
system of the chain built by `reduce_system` is well-formed. -/
theorem C16_well_formedness_preserved (S : InequalitySystem) (hwf : WellFormed S)
    (_hN : 1 ≤ S.num_vars) :
    (∀ k, k < S.num_vars →
      (S.reduce_on k).2.num_vars = S.num_vars - 1 ∧
      (∀ q ∈ (S.reduce_on k).2.ineqs, q.coeffs.length = (S.reduce_on k).2.num_vars) ∧
      (S.reduce_on k).2.num_ineqs = (S.reduce_on k).2.ineqs.length) ∧
    ∀ T ∈ reduce_system S, WellFormed T := by
  refine ⟨fun k hk => ⟨rfl, (reduce_on_wf S k hwf hk).1, (reduce_on_wf S k hwf hk).2⟩, ?_⟩
  rw [reduce_system_eq]
  exact chain_mem_wf S.num_vars S hwf rfl

theorem C16_well_formedness_preserved_witness :
    WellFormed scenarioB ∧ 1 ≤ scenarioB.num_vars ∧ 1 < scenarioB.num_vars ∧
    ((scenarioB.reduce_on 1).2.num_vars = scenarioB.num_vars - 1 ∧
      (∀ q ∈ (scenarioB.reduce_on 1).2.ineqs,
        q.coeffs.length = (scenarioB.reduce_on 1).2.num_vars) ∧
      (scenarioB.reduce_on 1).2.num_ineqs = (scenarioB.reduce_on 1).2.ineqs.length) ∧
    ∀ T ∈ reduce_system scenarioB, WellFormed T :=
  ⟨by decide, by decide, by decide,
    (C16_well_formedness_preserved scenarioB (by decide) (by decide)).1 1 (by decide),
    (C16_well_formedness_preserved scenarioB (by decide) (by decide)).2⟩

/-- C19: a verified non-negative Farkas vector proves infeasibility.  For a
well-formed system `S` with `m` constraints and `N` variables there are not both a
vector `x` of length `N` with `S.is_valid(x)` and a vector `y` of length `m` with
every entry `≥ 0` and `S.check_counterexample(y)`. -/
theorem C19_farkas_vector_excludes_solution (S : InequalitySystem) (_hwf : WellFormed S) :
    ¬ ((∃ x : List ℚ, x.length = S.num_vars ∧ S.is_valid x = true) ∧
       (∃ y : List ℚ, y.length = S.ineqs.length ∧ (∀ t ∈ y, 0 ≤ t) ∧
          S.check_counterexample y = true)) := by
  rintro ⟨⟨x, hx, hval⟩, ⟨y, _, hy, hc⟩⟩
  exact farkas_excludes_solution S x y hx hval hy ((check_counterexample_iff S y).mp hc)

theorem C19_farkas_vector_excludes_solution_witness :
    WellFormed scenarioA ∧
    ¬ ((∃ x : List ℚ, x.length = scenarioA.num_vars ∧ scenarioA.is_valid x = true) ∧
       (∃ y : List ℚ, y.length = scenarioA.ineqs.length ∧ (∀ t ∈ y, 0 ≤ t) ∧
          scenarioA.check_counterexample y = true)) :=
  ⟨by decide, C19_farkas_vector_excludes_solution scenarioA (by decide)⟩

/-- C20, as written: for scenario A (`N = 1`) element `0` of the chain does not have
`0` variables; it is the input, with its one variable. -/
theorem C20_element_zero_has_all_variables :
    ¬ (∀ i, i ≤ scenarioA.num_vars →
        ((reduce_system scenarioA).getD i default).num_vars = i) := by
  intro h
  exact absurd (h 0 (by decide)) (by decide!)

/-- C20, amended: for an input with `N` variables and `0 ≤ i ≤ N`, element `i` of the
chain returned by `reduce_system` is the system with `i` variables eliminated: it has
`N − i` variables remaining, and for a well-formed input each of its constraints has
`N − i` coefficients. -/
theorem C20_chain_indexing (S : InequalitySystem) (i : Nat) (hi : i ≤ S.num_vars) :
    ((reduce_system S).getD i default).num_vars = S.num_vars - i ∧
    (WellFormed S →
      ∀ q ∈ ((reduce_system S).getD i default).ineqs, q.coeffs.length = S.num_vars - i) := by
  rw [reduce_system_eq]
  have h := chain_getD_num_vars S.num_vars S i hi
  refine ⟨h, ?_⟩
  intro hwf q hq
  rw [← h]
  exact (chain_getD_wf S.num_vars S hwf rfl i hi).1 q hq

theorem C20_chain_indexing_witness :
    0 ≤ scenarioA.num_vars ∧ WellFormed scenarioA ∧
    ((reduce_system scenarioA).getD 0 default).num_vars = scenarioA.num_vars - 0 ∧
    ∀ q ∈ ((reduce_system scenarioA).getD 0 default).ineqs,
      q.coeffs.length = scenarioA.num_vars - 0 :=
  ⟨by decide, by decide, (C20_chain_indexing scenarioA 0 (by decide)).1,
    (C20_chain_indexing scenarioA 0 (by decide)).2 (by decide)⟩

/-! ## Layout of the eliminated system -/

theorem getD_flatMap_map {β : Type} (f : Nat → Nat → β) (d : β) (l m : List Nat)
    (a b : Nat) (ha : a < l.length) (hb : b < m.length) :
    (l.flatMap fun p => m.map (f p)).getD (a * m.length + b) d =
      f (l.getD a 0) (m.getD b 0) := by
  induction l generalizing a with
  | nil => simp at ha
  | cons p l ih =>
    rw [List.flatMap_cons]
    cases a with
    | zero =>
      rw [Nat.zero_mul, Nat.zero_add, List.getD_append _ _ _ _ (by simpa using hb),
        List.getD_eq_getElem _ _ (by simpa using hb), List.getElem_map,
        List.getD_eq_getElem _ _ hb]
      rfl
    | succ a =>
      simp only [List.length_cons, add_lt_add_iff_right] at ha
      have hge : (m.map (f p)).length ≤ (a + 1) * m.length + b := by
        rw [List.length_map, Nat.add_mul]; omega
      rw [List.getD_append_right _ _ _ _ hge, List.getD_cons_succ]
      have hidx : (a + 1) * m.length + b - (m.map (f p)).length = a * m.length + b := by
        rw [List.length_map, Nat.add_mul]; omega
      rw [hidx]
      exact ih a ha

theorem combined_length (s : InequalitySystem) (k : Nat) :
    ((s.partition k Sign.Positive).flatMap fun p =>
      (s.partition k Sign.Negative).map fun n =>
        Inequality.combine ((s.normalized k).ineq p) p ((s.normalized k).ineq n) n k).length =
      (s.partition k Sign.Positive).length * (s.partition k Sign.Negative).length := by
  simp only [List.length_flatMap, List.length_map, Function.comp_def, List.map_const',
    List.sum_replicate, smul_eq_mul]

theorem reduce_on_snd_ineqs (s : InequalitySystem) (k : Nat) :
    (s.reduce_on k).2.ineqs =
      ((s.partition k Sign.Positive).flatMap fun p =>
        (s.partition k Sign.Negative).map fun n =>
          Inequality.combine ((s.normalized k).ineq p) p ((s.normalized k).ineq n) n k) ++
      (s.partition k Sign.Zero).map fun z =>
        Inequality.drop_one ((s.normalized k).ineq z) z k := rfl

theorem reduce_on_snd_ineq_pair (s : InequalitySystem) (k a b : Nat)
    (ha : a < (s.partition k Sign.Positive).length)
    (hb : b < (s.partition k Sign.Negative).length) :
    (s.reduce_on k).2.ineq (a * (s.partition k Sign.Negative).length + b) =
      Inequality.combine
        ((s.normalized k).ineq ((s.partition k Sign.Positive).getD a 0))
        ((s.partition k Sign.Positive).getD a 0)
        ((s.normalized k).ineq ((s.partition k Sign.Negative).getD b 0))
        ((s.partition k Sign.Negative).getD b 0) k := by
  rw [InequalitySystem.ineq, reduce_on_snd_ineqs]
  have hlt : a * (s.partition k Sign.Negative).length + b <
      (s.partition k Sign.Positive).length * (s.partition k Sign.Negative).length := by
    calc a * (s.partition k Sign.Negative).length + b
        < a * (s.partition k Sign.Negative).length + (s.partition k Sign.Negative).length := by
          omega
      _ = (a + 1) * (s.partition k Sign.Negative).length := by rw [Nat.add_mul]; omega
      _ ≤ (s.partition k Sign.Positive).length * (s.partition k Sign.Negative).length :=
          Nat.mul_le_mul_right _ ha
  rw [List.getD_append _ _ _ _ (by rw [combined_length]; exact hlt)]
  exact getD_flatMap_map
    (fun p n => Inequality.combine ((s.normalized k).ineq p) p ((s.normalized k).ineq n) n k)
    default _ _ a b ha hb

theorem reduce_on_snd_ineq_zero (s : InequalitySystem) (k t : Nat)
    (ht : t < (s.partition k Sign.Zero).length) :
    (s.reduce_on k).2.ineq
        ((s.partition k Sign.Positive).length * (s.partition k Sign.Negative).length + t) =
      Inequality.drop_one ((s.normalized k).ineq ((s.partition k Sign.Zero).getD t 0))
        ((s.partition k Sign.Zero).getD t 0) k := by
  rw [InequalitySystem.ineq, reduce_on_snd_ineqs,
    List.getD_append_right _ _ _ _ (by rw [combined_length]; omega), combined_length,
    Nat.add_sub_cancel_left, List.getD_eq_getElem _ _ (by simpa using ht),
    List.getElem_map, List.getD_eq_getElem _ _ ht]

theorem reduce_on_snd_scaling_factor (s : InequalitySystem) (k : Nat) :
    ∀ q ∈ (s.reduce_on k).2.ineqs, q.scaling_factor = 1 := by
  intro q hq
  rcases (mem_reduce_on_snd s k q).mp hq with ⟨p, _, m, _, rfl⟩ | ⟨z, _, rfl⟩ <;> rfl

/-- C12: cancellation by construction.  For a well-formed `S` and an index `k`, after
the normalization loop of `reduce_on(k)` every constraint of the Positive list has
coefficient `+1` at `k` and every constraint of the Negative list `−1`; so for every
constraint combined from a Positive `p` and a Negative `n` the omitted coordinate
`p[k] + n[k]` is `0`, the remaining coefficients are the coordinate-wise sums of the
normalized `p` and `n` with position `k` removed, and the right-hand side is the sum
of their normalized right-hand sides. -/
theorem C12_cancellation_by_construction (S : InequalitySystem) (k : Nat)
    (hwf : WellFormed S) :
    (∀ p ∈ S.partition k Sign.Positive,
      ((S.reduce_on k).1.ineq p).coeffs.getD k 0 = 1) ∧
    (∀ n ∈ S.partition k Sign.Negative,
      ((S.reduce_on k).1.ineq n).coeffs.getD k 0 = -1) ∧
    (∀ p ∈ S.partition k Sign.Positive, ∀ n ∈ S.partition k Sign.Negative,
      Inequality.combine ((S.reduce_on k).1.ineq p) p ((S.reduce_on k).1.ineq n) n k ∈
        (S.reduce_on k).2.ineqs ∧
      (List.zipWith (· + ·) ((S.reduce_on k).1.ineq p).coeffs
        ((S.reduce_on k).1.ineq n).coeffs).getD k 0 = 0 ∧
      (Inequality.combine ((S.reduce_on k).1.ineq p) p
          ((S.reduce_on k).1.ineq n) n k).coeffs =
        List.zipWith (· + ·) (((S.reduce_on k).1.ineq p).coeffs.eraseIdx k)
          (((S.reduce_on k).1.ineq n).coeffs.eraseIdx k) ∧
      (Inequality.combine ((S.reduce_on k).1.ineq p) p
          ((S.reduce_on k).1.ineq n) n k).rhs =
        ((S.reduce_on k).1.ineq p).rhs + ((S.reduce_on k).1.ineq n).rhs) := by
  have hP : ∀ p ∈ S.partition k Sign.Positive,
      ((S.reduce_on k).1.ineq p).coeffs.getD k 0 = 1 := by
    intro p hp
    rw [mem_partition] at hp
    rw [reduce_on_fst, normalized_ineq S k p hp.1, norm_getD_of_pos k _ hp.2]
  have hN : ∀ n ∈ S.partition k Sign.Negative,
      ((S.reduce_on k).1.ineq n).coeffs.getD k 0 = -1 := by
    intro n hn
    rw [mem_partition] at hn
    rw [reduce_on_fst, normalized_ineq S k n hn.1, norm_getD_of_neg k _ hn.2]
  refine ⟨hP, hN, ?_⟩
  intro p hp n hn
  have hlen : ((S.reduce_on k).1.ineq p).coeffs.length =
      ((S.reduce_on k).1.ineq n).coeffs.length := by
    have h1 := ((mem_partition S k _ p).mp hp).1
    have h2 := ((mem_partition S k _ n).mp hn).1
    rw [reduce_on_fst, normalized_ineq S k p h1, normalized_ineq S k n h2,
      norm_ineq_length, norm_ineq_length, hwf.length_ineq p h1, hwf.length_ineq n h2]
  refine ⟨(mem_reduce_on_snd S k _).mpr (Or.inl ⟨p, hp, n, hn, rfl⟩), ?_,
    eraseIdx_zipWith_add _ _ k, rfl⟩
  rw [getD_zipWith_add _ _ _ hlen, hP p hp, hN n hn]
  ring

theorem C12_cancellation_by_construction_witness :
    WellFormed scenarioA_doubled ∧
    0 ∈ scenarioA_doubled.partition 0 Sign.Positive ∧
    1 ∈ scenarioA_doubled.partition 0 Sign.Negative ∧
    ((scenarioA_doubled.reduce_on 0).1.ineq 1).coeffs.getD 0 0 = -1 ∧
    (Inequality.combine ((scenarioA_doubled.reduce_on 0).1.ineq 0) 0
        ((scenarioA_doubled.reduce_on 0).1.ineq 1) 1 0 ∈
        (scenarioA_doubled.reduce_on 0).2.ineqs ∧
      (List.zipWith (· + ·) ((scenarioA_doubled.reduce_on 0).1.ineq 0).coeffs
        ((scenarioA_doubled.reduce_on 0).1.ineq 1).coeffs).getD 0 0 = 0 ∧
      (Inequality.combine ((scenarioA_doubled.reduce_on 0).1.ineq 0) 0
          ((scenarioA_doubled.reduce_on 0).1.ineq 1) 1 0).coeffs =
        List.zipWith (· + ·) (((scenarioA_doubled.reduce_on 0).1.ineq 0).coeffs.eraseIdx 0)
          (((scenarioA_doubled.reduce_on 0).1.ineq 1).coeffs.eraseIdx 0) ∧
      (Inequality.combine ((scenarioA_doubled.reduce_on 0).1.ineq 0) 0
          ((scenarioA_doubled.reduce_on 0).1.ineq 1) 1 0).rhs =
        ((scenarioA_doubled.reduce_on 0).1.ineq 0).rhs +
          ((scenarioA_doubled.reduce_on 0).1.ineq 1).rhs) :=
  ⟨by decide, by decide!, by decide!,
    (C12_cancellation_by_construction scenarioA_doubled 0 (by decide)).2.1 1 (by decide!),
    (C12_cancellation_by_construction scenarioA_doubled 0 (by decide)).2.2 0 (by decide!)
      1 (by decide!)⟩

/-- C13: layout of the eliminated system.  With `Zero`, `Positive`, `Negative` the
lists of `partition(k)`, each in ascending index order, the constraint list of
`S.reduce_on(k)` is: for each `p` in `Positive` (outer) and each `n` in `Negative`
(inner) the combination of the constraints `p` and `n`, with parents `[p, n]`; then
for each `z` in `Zero` the drop-one copy of the constraint `z`, with parents `[z]`.
Result index `a·|Negative| + b` holds the pair `(Positive[a], Negative[b])`, result
index `|Positive|·|Negative| + t` holds `Zero[t]`, and every new constraint has
scaling factor `1`. -/
theorem C13_layout_of_reduced_system (S : InequalitySystem) (k : Nat) :
    (∀ sg, (S.partition k sg).Pairwise (· < ·)) ∧
    (S.reduce_on k).2.ineqs =
      ((S.partition k Sign.Positive).flatMap fun p =>
        (S.partition k Sign.Negative).map fun n =>
          Inequality.combine ((S.reduce_on k).1.ineq p) p ((S.reduce_on k).1.ineq n) n k) ++
      ((S.partition k Sign.Zero).map fun z =>
        Inequality.drop_one ((S.reduce_on k).1.ineq z) z k) ∧
    (∀ a b, a < (S.partition k Sign.Positive).length →
      b < (S.partition k Sign.Negative).length →
      (S.reduce_on k).2.ineq (a * (S.partition k Sign.Negative).length + b) =
        Inequality.combine
          ((S.reduce_on k).1.ineq ((S.partition k Sign.Positive).getD a 0))
          ((S.partition k Sign.Positive).getD a 0)
          ((S.reduce_on k).1.ineq ((S.partition k Sign.Negative).getD b 0))
          ((S.partition k Sign.Negative).getD b 0) k ∧
      ((S.reduce_on k).2.ineq (a * (S.partition k Sign.Negative).length + b)).parents =
        [(S.partition k Sign.Positive).getD a 0, (S.partition k Sign.Negative).getD b 0]) ∧
    (∀ t, t < (S.partition k Sign.Zero).length →
      (S.reduce_on k).2.ineq
          ((S.partition k Sign.Positive).length * (S.partition k Sign.Negative).length + t) =
        Inequality.drop_one ((S.reduce_on k).1.ineq ((S.partition k Sign.Zero).getD t 0))
          ((S.partition k Sign.Zero).getD t 0) k ∧
      ((S.reduce_on k).2.ineq
          ((S.partition k Sign.Positive).length * (S.partition k Sign.Negative).length +
            t)).parents = [(S.partition k Sign.Zero).getD t 0]) ∧
    (∀ q ∈ (S.reduce_on k).2.ineqs, q.scaling_factor = 1) := by
  refine ⟨fun sg => (List.pairwise_lt_range _).filter _, reduce_on_snd_ineqs S k, ?_, ?_,
    reduce_on_snd_scaling_factor S k⟩
  · intro a b ha hb
    have h := reduce_on_snd_ineq_pair S k a b ha hb
    rw [reduce_on_fst]
    exact ⟨h, by rw [h]; rfl⟩
  · intro t ht
    have h := reduce_on_snd_ineq_zero S k t ht
    rw [reduce_on_fst]
    exact ⟨h, by rw [h]; rfl⟩

theorem C13_layout_of_reduced_system_witness :
    0 < (scenarioB.partition 1 Sign.Positive).length ∧
    0 < (scenarioB.partition 1 Sign.Negative).length ∧
    0 < (scenarioB.partition 1 Sign.Zero).length ∧
    ((scenarioB.reduce_on 1).2.ineq (0 * (scenarioB.partition 1 Sign.Negative).length + 0)
        ).parents =
      [(scenarioB.partition 1 Sign.Positive).getD 0 0,
        (scenarioB.partition 1 Sign.Negative).getD 0 0] ∧
    ((scenarioB.reduce_on 1).2.ineq
        ((scenarioB.partition 1 Sign.Positive).length *
          (scenarioB.partition 1 Sign.Negative).length + 0)).parents =
      [(scenarioB.partition 1 Sign.Zero).getD 0 0] :=
  ⟨by decide!, by decide!, by decide!,
    ((C13_layout_of_reduced_system scenarioB 1).2.2.1 0 0 (by decide!) (by decide!)).2,
    ((C13_layout_of_reduced_system scenarioB 1).2.2.2.1 0 (by decide!)).2⟩

/-! ## `calc_variable` against its reference definition -/

theorem all_zero_iff (s : InequalitySystem) (k : Nat) :
    s.ineqs.all (fun q => decide (q.coeffs.getD k 0 = 0)) = true ↔
      (s.partition k Sign.Positive).length + (s.partition k Sign.Negative).length = 0 := by
  rw [List.all_eq_true]
  constructor
  · intro h
    have hz : ∀ i, i < s.ineqs.length → (s.ineq i).get_sign k = Sign.Zero := by
      intro i hi
      rw [get_sign_zero_iff]
      simpa using h _ (ineq_mem s i hi)
    have hP : s.partition k Sign.Positive = [] := by
      apply List.eq_nil_iff_forall_not_mem.mpr
      intro i hi
      rw [mem_partition] at hi
      rw [hz i hi.1] at hi
      exact absurd hi.2 (by decide)
    have hN : s.partition k Sign.Negative = [] := by
      apply List.eq_nil_iff_forall_not_mem.mpr
      intro i hi
      rw [mem_partition] at hi
      rw [hz i hi.1] at hi
      exact absurd hi.2 (by decide)
    rw [hP, hN]; rfl
  · intro h q hq
    obtain ⟨i, hi, rfl⟩ := exists_ineq_of_mem s q hq
    have hP : s.partition k Sign.Positive = [] := List.length_eq_zero.mp (by omega)
    have hN : s.partition k Sign.Negative = [] := List.length_eq_zero.mp (by omega)
    rcases sign_cases (s.ineq i) k with hs | hs | hs
    · simpa using (get_sign_zero_iff _ _).mp hs
    · have : i ∈ s.partition k Sign.Positive := (mem_partition s k _ i).mpr ⟨hi, hs⟩
      rw [hP] at this
      exact absurd this (List.not_mem_nil _)
    · have : i ∈ s.partition k Sign.Negative := (mem_partition s k _ i).mpr ⟨hi, hs⟩
      rw [hN] at this
      exact absurd this (List.not_mem_nil _)

theorem nonempty_sides (s : InequalitySystem) (k : Nat)
    (h0 : ¬ (s.partition k Sign.Positive).length +
      (s.partition k Sign.Negative).length = 0) :
    ((s.partition k Sign.Positive).length > (s.partition k Sign.Negative).length →
      s.partition k Sign.Positive ≠ []) ∧
    (¬ (s.partition k Sign.Positive).length > (s.partition k Sign.Negative).length →
      s.partition k Sign.Negative ≠ []) := by
  constructor
  · intro h1 h
    rw [h, List.length_nil] at h1
    omega
  · intro h1 h
    rw [h, List.length_nil] at h1 h0
    omega

theorem calc_variable_binding (s : InequalitySystem) (k : Nat) (hwf : WellFormed s)
    (x : List ℚ) (hx : x.length + 1 = s.num_vars) (hk : k < s.num_vars) (v : ℚ)
    (hv : (s.normalized k).calc_variable k (x.insertIdx k 0) = some v)
    (h0 : ¬ (s.partition k Sign.Positive).length +
      (s.partition k Sign.Negative).length = 0) :
    ∃ i ∈ s.partition k
        (if (s.partition k Sign.Positive).length > (s.partition k Sign.Negative).length
          then Sign.Positive else Sign.Negative),
      ((s.normalized k).ineq i).evaluate_lhs (x.insertIdx k v) =
        ((s.normalized k).ineq i).rhs := by
  obtain ⟨hne1, hne2⟩ := nonempty_sides s k h0
  unfold InequalitySystem.calc_variable at hv
  simp only [partition_normalized, h0, if_false] at hv
  by_cases h1 : (s.partition k Sign.Positive).length > (s.partition k Sign.Negative).length
  · rw [if_pos h1] at hv ⊢
    obtain ⟨v', hv', _, i, hi, hvi⟩ :=
      get_min_spec (s.normalized k) _ (x.insertIdx k 0) (hne1 h1)
    have hvv : v' = v := Option.some.inj (hv'.symm.trans hv)
    have hmem := (mem_partition s k _ i).mp hi
    refine ⟨i, hi, ?_⟩
    rw [evaluate_lhs_eq_dot, row_eval s k hwf x hx hk v i hmem.1,
      normalized_ineq s k i hmem.1, norm_getD_of_pos k _ hmem.2]
    rw [eval_insert_zero s k hwf x hx hk i hmem.1, normalized_ineq s k i hmem.1] at hvi
    rw [← hvv, hvi]
    ring
  · rw [if_neg h1] at hv ⊢
    obtain ⟨v', hv', _, i, hi, hvi⟩ :=
      get_max_spec (s.normalized k) _ (x.insertIdx k 0) (hne2 h1)
    have hvv : v' = v := Option.some.inj (hv'.symm.trans hv)
    have hmem := (mem_partition s k _ i).mp hi
    refine ⟨i, hi, ?_⟩
    rw [evaluate_lhs_eq_dot, row_eval s k hwf x hx hk v i hmem.1,
      normalized_ineq s k i hmem.1, norm_getD_of_neg k _ hmem.2]
    rw [eval_insert_zero s k hwf x hx hk i hmem.1, normalized_ineq s k i hmem.1] at hvi
    rw [← hvv, hvi]
    ring

/-- C11: a single recovery step.  Let `S` be well-formed with `N ≥ 1` variables,
`k < N`, and `x'` a vector of length `N − 1` satisfying the system returned by
`S.reduce_on(k)`; let `v` be `calc_variable(k, ·)` of the receiver (left normalized on
`k`) on `x'` with `0` inserted at position `k`.  Then `v` is a value, `x'` with `v`
inserted at position `k` satisfies every constraint of `S` (before and after the
normalization), and if some constraint of `S` has a non-zero coefficient at `k`, a
constraint of the chosen side (Positive if `|Positive| > |Negative|`, else Negative)
holds with equality there. -/
theorem C11_single_recovery_step (S : InequalitySystem) (k : Nat) (x' : List ℚ)
    (hwf : WellFormed S) (hN : 1 ≤ S.num_vars) (hk : k < S.num_vars)
    (hx : x'.length = S.num_vars - 1)
    (hR : (S.reduce_on k).2.is_valid x' = true) :
    ∃ v, (S.reduce_on k).1.calc_variable k (x'.insertIdx k 0) = some v ∧
      S.is_valid (x'.insertIdx k v) = true ∧
      (S.reduce_on k).1.is_valid (x'.insertIdx k v) = true ∧
      ((∃ q ∈ S.ineqs, q.coeffs.getD k 0 ≠ 0) →
        ∃ i ∈ (S.reduce_on k).1.partition k
            (if ((S.reduce_on k).1.partition k Sign.Positive).length >
                ((S.reduce_on k).1.partition k Sign.Negative).length
              then Sign.Positive else Sign.Negative),
          ((S.reduce_on k).1.ineq i).evaluate_lhs (x'.insertIdx k v) =
            ((S.reduce_on k).1.ineq i).rhs) := by
  have hx1 : x'.length + 1 = S.num_vars := by omega
  obtain ⟨v, hv, hval⟩ := calc_variable_spec S k hwf x' hx1 hk hR
  refine ⟨v, hv, by rwa [normalized_is_valid] at hval, hval, ?_⟩
  rintro ⟨q, hq, hne⟩
  have h0 : ¬ (S.partition k Sign.Positive).length +
      (S.partition k Sign.Negative).length = 0 := by
    intro hc
    have := List.all_eq_true.mp ((all_zero_iff S k).mpr hc) q hq
    exact hne (by simpa using this)
  simp only [reduce_on_fst, partition_normalized]
  exact calc_variable_binding S k hwf x' hx1 hk v hv h0

theorem C11_single_recovery_step_witness :
    WellFormed scenarioB ∧ 1 ≤ scenarioB.num_vars ∧ 1 < scenarioB.num_vars ∧
    [(1 : ℚ)].length = scenarioB.num_vars - 1 ∧
    (scenarioB.reduce_on 1).2.is_valid [1] = true ∧
    (∃ q ∈ scenarioB.ineqs, q.coeffs.getD 1 0 ≠ 0) ∧
    ∃ v, (scenarioB.reduce_on 1).1.calc_variable 1 ([1].insertIdx 1 0) = some v ∧
      scenarioB.is_valid ([1].insertIdx 1 v) = true ∧
      (scenarioB.reduce_on 1).1.is_valid ([1].insertIdx 1 v) = true ∧
      ((∃ q ∈ scenarioB.ineqs, q.coeffs.getD 1 0 ≠ 0) →
        ∃ i ∈ (scenarioB.reduce_on 1).1.partition 1
            (if ((scenarioB.reduce_on 1).1.partition 1 Sign.Positive).length >
                ((scenarioB.reduce_on 1).1.partition 1 Sign.Negative).length
              then Sign.Positive else Sign.Negative),
          ((scenarioB.reduce_on 1).1.ineq i).evaluate_lhs ([1].insertIdx 1 v) =
            ((scenarioB.reduce_on 1).1.ineq i).rhs) :=
  ⟨by decide, by decide, by decide, by decide, by decide!, by decide!,
    C11_single_recovery_step scenarioB 1 [1] (by decide) (by decide) (by decide)
      (by decide) (by decide!)⟩

/-! ## Chain elements before and after their rescaling -/

theorem created_zero (n : Nat) (s : InequalitySystem) : created n s 0 = s := by
  cases n <;> rfl

theorem chain_getD_created (n : Nat) (s : InequalitySystem) (i : Nat) (hi : i ≤ n) :
    (chain n s).getD i default = stored (n - i) (created n s i) := by
  induction n generalizing s i with
  | zero =>
    have : i = 0 := by omega
    subst this; rfl
  | succ n ih =>
    cases i with
    | zero => rfl
    | succ i =>
      rw [chain, List.getD_cons_succ, ih _ i (by omega), created]
      have : n + 1 - (i + 1) = n - i := by omega
      rw [this]

theorem created_scaling_factor (n : Nat) (s : InequalitySystem) (i : Nat)
    (h : ∀ q ∈ s.ineqs, q.scaling_factor = 1) :
    ∀ q ∈ (created n s i).ineqs, q.scaling_factor = 1 := by
  induction n generalizing s i with
  | zero => cases i <;> exact h
  | succ n ih =>
    cases i with
    | zero => exact h
    | succ i => exact ih _ i (reduce_on_snd_scaling_factor s n)

theorem mem_chain_iff_getD (n : Nat) (s T : InequalitySystem) :
    T ∈ chain n s ↔ ∃ i, i ≤ n ∧ (chain n s).getD i default = T := by
  constructor
  · intro h
    obtain ⟨i, hi, rfl⟩ := List.mem_iff_getElem.mp h
    refine ⟨i, by rw [chain_length] at hi; omega, List.getD_eq_getElem _ _ hi⟩
  · rintro ⟨i, hi, rfl⟩
    have hlt : i < (chain n s).length := by rw [chain_length]; omega
    rw [List.getD_eq_getElem _ _ hlt]
    exact List.getElem_mem hlt

theorem norm_ineq_scaling_factor (k : Nat) (q : Inequality) :
    (norm_ineq k q).scaling_factor =
      if q.coeffs.getD k 0 = 0 then q.scaling_factor
      else q.scaling_factor * |q.coeffs.getD k 0| := by
  by_cases h : q.coeffs.getD k 0 = 0
  · rw [norm_ineq, if_pos ((get_sign_zero_iff _ _).mpr h), if_pos h]
  · have hs : ¬ q.get_sign k = Sign.Zero := fun hz => h ((get_sign_zero_iff _ _).mp hz)
    rw [norm_ineq, if_neg hs, if_neg h]
    simp [Inequality.normalize_on, Inequality.scale]

theorem stored_mem (j : Nat) (s : InequalitySystem) (q : Inequality)
    (hq : q ∈ (stored j s).ineqs) :
    ∃ q0 ∈ s.ineqs, q.parents = q0.parents ∧
      (q = q0 ∨ ∃ k, q = norm_ineq k q0) := by
  cases j with
  | zero => exact ⟨q, hq, rfl, Or.inl rfl⟩
  | succ j =>
    have hq' : q ∈ (s.normalized j).ineqs := hq
    rw [normalized_ineqs, List.mem_map] at hq'
    obtain ⟨q0, hq0, rfl⟩ := hq'
    exact ⟨q0, hq0, norm_ineq_parents j q0, Or.inr ⟨j, rfl⟩⟩

/-- C15: provenance indices are in range.  In the chain returned by `reduce_system` for
a well-formed input (whose constraints, built by `Inequality(num_vars, rhs)`, have no
parents) every constraint of the first system has no parents; for `i ≥ 1` every
constraint of element `i` has either one parent, a Zero constraint of element `i − 1`,
or two parents, a Positive then a Negative constraint of element `i − 1`, each index
less than the number of constraints of element `i − 1`; so every write `ret[np]` of
`compute_parents` is inside the vector of length `chain[i−1].num_ineqs()`. -/
theorem C15_provenance_in_range (S : InequalitySystem) (hwf : WellFormed S)
    (hpar : ∀ q ∈ S.ineqs, q.parents = []) :
    (∀ q ∈ ((reduce_system S).getD 0 default).ineqs, q.parents = []) ∧
    (∀ i, i < S.num_vars → ∀ q ∈ ((reduce_system S).getD (i + 1) default).ineqs,
      (∃ z, q.parents = [z] ∧
        z ∈ ((reduce_system S).getD i default).partition (S.num_vars - i - 1) Sign.Zero ∧
        z < ((reduce_system S).getD i default).ineqs.length) ∨
      (∃ p n, q.parents = [p, n] ∧
        p ∈ ((reduce_system S).getD i default).partition (S.num_vars - i - 1)
          Sign.Positive ∧
        n ∈ ((reduce_system S).getD i default).partition (S.num_vars - i - 1)
          Sign.Negative ∧
        p < ((reduce_system S).getD i default).ineqs.length ∧
        n < ((reduce_system S).getD i default).ineqs.length)) ∧
    (∀ i, i < S.num_vars → ∀ p, p < ((reduce_system S).getD (i + 1) default).num_ineqs →
      ∀ np ∈ ((reduce_system S).getD (i + 1) default).get_parents p,
        np < ((reduce_system S).getD i default).num_ineqs) := by
  rw [reduce_system_eq]
  have hfirst : ∀ q ∈ ((chain S.num_vars S).getD 0 default).ineqs, q.parents = [] := by
    intro q hq
    rw [chain_getD_created _ _ 0 (Nat.zero_le _), created_zero] at hq
    obtain ⟨q0, hq0, hp, _⟩ := stored_mem _ _ q hq
    rw [hp]; exact hpar q0 hq0
  have hstep : ∀ i, i < S.num_vars → ∀ q ∈ ((chain S.num_vars S).getD (i + 1) default).ineqs,
      (∃ z, q.parents = [z] ∧
        z ∈ ((chain S.num_vars S).getD i default).partition (S.num_vars - i - 1) Sign.Zero ∧
        z < ((chain S.num_vars S).getD i default).ineqs.length) ∨
      (∃ p n, q.parents = [p, n] ∧
        p ∈ ((chain S.num_vars S).getD i default).partition (S.num_vars - i - 1)
          Sign.Positive ∧
        n ∈ ((chain S.num_vars S).getD i default).partition (S.num_vars - i - 1)
          Sign.Negative ∧
        p < ((chain S.num_vars S).getD i default).ineqs.length ∧
        n < ((chain S.num_vars S).getD i default).ineqs.length) := by
    intro i hi q hq
    rw [(chain_getD_step S.num_vars S i hi).1] at hq
    obtain ⟨q0, hq0, hpe, _⟩ := stored_mem _ _ q hq
    rw [hpe]
    rcases (mem_reduce_on_snd _ _ q0).mp hq0 with ⟨p, hp, m, hm, rfl⟩ | ⟨z, hz, rfl⟩
    · exact Or.inr ⟨p, m, rfl, hp, hm, ((mem_partition _ _ _ p).mp hp).1,
        ((mem_partition _ _ _ m).mp hm).1⟩
    · exact Or.inl ⟨z, rfl, hz, ((mem_partition _ _ _ z).mp hz).1⟩
  refine ⟨hfirst, hstep, ?_⟩
  intro i hi p hp np hnp
  have hwf1 := chain_getD_wf S.num_vars S hwf rfl (i + 1) (by omega)
  have hwf0 := chain_getD_wf S.num_vars S hwf rfl i (by omega)
  rw [hwf1.2] at hp
  rw [hwf0.2]
  have hmem := ineq_mem _ p hp
  rcases hstep i hi _ hmem with ⟨z, hz, _, hlt⟩ | ⟨a, b, hab, _, _, ha, hb⟩
  · rw [InequalitySystem.get_parents, hz, List.mem_singleton] at hnp
    rw [hnp]; exact hlt
  · rw [InequalitySystem.get_parents, hab] at hnp
    simp only [List.mem_cons, List.mem_singleton, List.not_mem_nil, or_false] at hnp
    rcases hnp with rfl | rfl
    · exact ha
    · exact hb

theorem C15_provenance_in_range_witness :
    WellFormed scenarioB ∧ (∀ q ∈ scenarioB.ineqs, q.parents = []) ∧
    0 < scenarioB.num_vars ∧
    0 < ((reduce_system scenarioB).getD (0 + 1) default).num_ineqs ∧
    (∀ q ∈ ((reduce_system scenarioB).getD 0 default).ineqs, q.parents = []) ∧
    ∀ np ∈ ((reduce_system scenarioB).getD (0 + 1) default).get_parents 0,
      np < ((reduce_system scenarioB).getD 0 default).num_ineqs :=
  ⟨by decide, by decide!, by decide, by decide!,
    (C15_provenance_in_range scenarioB (by decide) (by decide!)).1,
    (C15_provenance_in_range scenarioB (by decide) (by decide!)).2.2 0 (by decide) 0
      (by decide!)⟩

/-- C17: scaling factors stay positive and each constraint is rescaled at most once.
In the chain returned by `reduce_system` for a well-formed input whose constraints
all have scaling factor `1`: every constraint of every system has a positive scaling
factor; it is `1` for every constraint of the last system; element `i < N` is element
`i` as appended (all scaling factors `1`) normalized once, on variable `N − i − 1`,
and the scaling factor of a constraint is `1` when its coefficient `c` on that
variable before the normalization was `0`, and `|c|` otherwise; so no divisor of
`compute_parents` is zero. -/
theorem C17_scaling_factors (S : InequalitySystem) (_hwf : WellFormed S)
    (hsf : ∀ q ∈ S.ineqs, q.scaling_factor = 1) :
    (∀ T ∈ reduce_system S, ∀ q ∈ T.ineqs, 0 < q.scaling_factor) ∧
    (∀ q ∈ ((reduce_system S).getLastD default).ineqs, q.scaling_factor = 1) ∧
    (∀ i, i < S.num_vars →
      (reduce_system S).getD i default =
        (created S.num_vars S i).normalized (S.num_vars - i - 1) ∧
      ∀ j, j < (created S.num_vars S i).ineqs.length →
        ((created S.num_vars S i).ineq j).scaling_factor = 1 ∧
        (((created S.num_vars S i).ineq j).coeffs.getD (S.num_vars - i - 1) 0 = 0 →
          (((reduce_system S).getD i default).ineq j).scaling_factor = 1) ∧
        (((created S.num_vars S i).ineq j).coeffs.getD (S.num_vars - i - 1) 0 ≠ 0 →
          (((reduce_system S).getD i default).ineq j).scaling_factor =
            |((created S.num_vars S i).ineq j).coeffs.getD (S.num_vars - i - 1) 0|)) ∧
    (∀ T ∈ reduce_system S, ∀ p, p < T.ineqs.length → T.get_scaling_factor p ≠ 0) := by
  rw [reduce_system_eq]
  have hpos : ∀ T ∈ chain S.num_vars S, ∀ q ∈ T.ineqs, 0 < q.scaling_factor := by
    intro T hT q hq
    obtain ⟨i, hi, rfl⟩ := (mem_chain_iff_getD _ _ _).mp hT
    rw [chain_getD_created _ _ i hi] at hq
    obtain ⟨q0, hq0, _, h⟩ := stored_mem _ _ q hq
    have h1 := created_scaling_factor S.num_vars S i hsf q0 hq0
    rcases h with rfl | ⟨k, rfl⟩
    · rw [h1]; exact one_pos
    · rw [norm_ineq_scaling_factor, h1]
      by_cases hc : q0.coeffs.getD k 0 = 0
      · rw [if_pos hc]; exact one_pos
      · rw [if_neg hc, one_mul]; exact abs_pos.mpr hc
  refine ⟨hpos, ?_, ?_, ?_⟩
  · intro q hq
    have hl : (chain S.num_vars S).getLastD default =
        (chain S.num_vars S).getD S.num_vars default := by
      rw [List.getLastD_eq_getLast?, List.getLast?_eq_getElem?, chain_length,
        Nat.add_sub_cancel, List.getD_eq_getElem?_getD]
    rw [hl, chain_getD_created _ _ _ (le_refl _), Nat.sub_self] at hq
    exact created_scaling_factor S.num_vars S _ hsf q hq
  · intro i hi
    obtain ⟨m, hm⟩ : ∃ m, S.num_vars - i = m + 1 := ⟨S.num_vars - i - 1, by omega⟩
    have heq : (chain S.num_vars S).getD i default =
        (created S.num_vars S i).normalized (S.num_vars - i - 1) := by
      rw [chain_getD_created _ _ i (by omega), hm]; rfl
    refine ⟨heq, ?_⟩
    intro j hj
    have h1 := created_scaling_factor S.num_vars S i hsf _ (ineq_mem _ j hj)
    rw [heq, normalized_ineq _ _ j hj, norm_ineq_scaling_factor, h1]
    refine ⟨rfl, ?_, ?_⟩
    · intro hc; rw [if_pos hc]
    · intro hc; rw [if_neg hc, one_mul]
  · intro T hT p hp
    exact ne_of_gt (hpos T hT _ (ineq_mem T p hp))

theorem C17_scaling_factors_witness :
    WellFormed scenarioA_doubled ∧
    (∀ q ∈ scenarioA_doubled.ineqs, q.scaling_factor = 1) ∧
    0 < scenarioA_doubled.num_vars ∧
    1 < (created scenarioA_doubled.num_vars scenarioA_doubled 0).ineqs.length ∧
    ((created scenarioA_doubled.num_vars scenarioA_doubled 0).ineq 1).coeffs.getD
        (scenarioA_doubled.num_vars - 0 - 1) 0 ≠ 0 ∧
    (((reduce_system scenarioA_doubled).getD 0 default).ineq 1).scaling_factor =
      |((created scenarioA_doubled.num_vars scenarioA_doubled 0).ineq 1).coeffs.getD
        (scenarioA_doubled.num_vars - 0 - 1) 0| ∧
    (∀ q ∈ ((reduce_system scenarioA_doubled).getLastD default).ineqs,
      q.scaling_factor = 1) :=
  ⟨by decide, by decide!, by decide, by decide, by decide!,
    (((C17_scaling_factors scenarioA_doubled (by decide) (by decide!)).2.2.1 0
      (by decide)).2 1 (by decide)).2.2 (by decide!),
    (C17_scaling_factors scenarioA_doubled (by decide) (by decide!)).2.1⟩

/-! ## No assertion fails on a well-formed input -/

theorem checked_evaluate_lhs (q : Inequality) (vars : List ℚ)
    (h : q.coeffs.length = vars.length) :
    Checked.evaluate_lhs q vars = some (q.evaluate_lhs vars) := by
  rw [Checked.evaluate_lhs, if_pos (by rw [Inequality.num_vars, h])]
  rfl

theorem checked_is_valid (q : Inequality) (vars : List ℚ)
    (h : q.coeffs.length = vars.length) :
    Checked.is_valid q vars = some (q.is_valid vars) := by
  rw [Checked.is_valid, checked_evaluate_lhs q vars h]
  rfl

theorem checked_all_valid (l : List Inequality) (vars : List ℚ)
    (h : ∀ q ∈ l, q.coeffs.length = vars.length) :
    Checked.all_valid l vars = some (l.all fun q => q.is_valid vars) := by
  induction l with
  | nil => rfl
  | cons q l ih =>
    rw [Checked.all_valid, checked_is_valid q vars (h q (List.mem_cons_self _ _)),
      Option.some_bind, List.all_cons]
    cases hb : q.is_valid vars with
    | false => rfl
    | true =>
      rw [if_pos rfl, ih (fun q hq => h q (List.mem_cons_of_mem _ hq))]
      rfl

theorem checked_sys_is_valid (s : InequalitySystem) (vars : List ℚ)
    (hwf : WellFormed s) (hv : vars.length = s.num_vars) :
    Checked.sys_is_valid s vars = some (s.is_valid vars) :=
  checked_all_valid s.ineqs vars (fun q hq => (hwf.1 q hq).trans hv.symm)

theorem checked_find_from (l : List Inequality) (vars : List ℚ) (i : Nat)
    (h : ∀ q ∈ l, q.coeffs.length = vars.length)
    (hex : ∃ q ∈ l, q.is_valid vars = false) :
    Checked.find_from l vars i = some (i + l.findIdx fun q => !q.is_valid vars) := by
  induction l generalizing i with
  | nil =>
    obtain ⟨q, hq, _⟩ := hex
    exact absurd hq (List.not_mem_nil _)
  | cons q l ih =>
    rw [Checked.find_from, checked_is_valid q vars (h q (List.mem_cons_self _ _)),
      Option.some_bind, List.findIdx_cons]
    cases hb : q.is_valid vars with
    | false => simp
    | true =>
      have hex' : ∃ q' ∈ l, q'.is_valid vars = false := by
        obtain ⟨q', hq', hv⟩ := hex
        rcases List.mem_cons.mp hq' with rfl | hq'
        · rw [hb] at hv; exact absurd hv (by decide)
        · exact ⟨q', hq', hv⟩
      simp only [Bool.not_true, Bool.false_eq_true, if_false, cond_false]
      rw [ih (i + 1) (fun q hq => h q (List.mem_cons_of_mem _ hq)) hex']
      congr 1
      omega

theorem checked_find_invalid (s : InequalitySystem) (vars : List ℚ)
    (hwf : WellFormed s) (hv : vars.length = s.num_vars)
    (hinv : s.is_valid vars = false) :
    Checked.find_invalid s vars = some (s.find_invalid vars) := by
  have hex : ∃ q ∈ s.ineqs, q.is_valid vars = false := by
    obtain ⟨hlt, hq, _⟩ := find_invalid_spec s vars hinv
    exact ⟨_, ineq_mem s _ hlt, hq⟩
  rw [Checked.find_invalid,
    checked_find_from s.ineqs vars 0 (fun q hq => (hwf.1 q hq).trans hv.symm) hex,
    Nat.zero_add]
  rfl

theorem checked_normalize_on (q : Inequality) (index : Nat)
    (h : q.coeffs.getD index 0 ≠ 0) :
    Checked.normalize_on q index = some (q.normalize_on index) := by
  rw [Checked.normalize_on, Checked.scale, if_pos (div_pos one_pos (abs_pos.mpr h))]
  rfl

theorem checked_normalize_all (index : Nat) (idxs : List Nat) (ineqs : List Inequality)
    (hnd : idxs.Nodup)
    (h : ∀ i ∈ idxs, (ineqs.getD i default).coeffs.getD index 0 ≠ 0) :
    Checked.normalize_all index idxs ineqs =
      some (InequalitySystem.normalize_all index idxs ineqs) := by
  induction idxs generalizing ineqs with
  | nil => rfl
  | cons i idxs ih =>
    rw [List.nodup_cons] at hnd
    rw [Checked.normalize_all, checked_normalize_on _ _ (h i (List.mem_cons_self _ _)),
      Option.some_bind]
    have hset : ineqs.set i ((ineqs.getD i default).normalize_on index) =
        ineqs.modify (fun q => q.normalize_on index) i := by
      rw [List.modify_eq_set, List.getD_eq_getElem?_getD]
    rw [hset, ih _ hnd.2]
    · rfl
    · intro j hj
      have hji : i ≠ j := fun e => hnd.1 (e ▸ hj)
      have : (ineqs.modify (fun q => q.normalize_on index) i).getD j default =
          ineqs.getD j default := by
        rw [List.getD_eq_getElem?_getD, List.getD_eq_getElem?_getD, List.getElem?_modify]
        cases ineqs[j]? <;> simp [hji]
      rw [this]
      exact h j (List.mem_cons_of_mem _ hj)

theorem checked_reduce_on (s : InequalitySystem) (k : Nat) (hwf : WellFormed s)
    (hk : k < s.num_vars) :
    Checked.reduce_on s k = some (s.reduce_on k) := by
  have hP : ∀ i ∈ s.partition k Sign.Positive,
      (s.ineqs.getD i default).coeffs.getD k 0 ≠ 0 := by
    intro i hi
    exact ne_of_gt ((get_sign_pos_iff _ _).mp ((mem_partition s k _ i).mp hi).2)
  have hN : ∀ i ∈ s.partition k Sign.Negative,
      ((InequalitySystem.normalize_all k (s.partition k Sign.Positive) s.ineqs).getD i
        default).coeffs.getD k 0 ≠ 0 := by
    intro i hi
    have hmem := (mem_partition s k _ i).mp hi
    have hnot : i ∉ s.partition k Sign.Positive := by
      intro hc
      have := ((mem_partition s k _ i).mp hc).2
      rw [hmem.2] at this
      exact absurd this (by decide)
    have : (InequalitySystem.normalize_all k (s.partition k Sign.Positive) s.ineqs).getD i
        default = s.ineqs.getD i default := by
      rw [List.getD_eq_getElem?_getD, List.getD_eq_getElem?_getD,
        InequalitySystem.normalize_all,
        getElem?_foldl_modify _ _ (nodup_partition s k _), if_neg hnot]
    rw [this]
    exact ne_of_lt ((get_sign_neg_iff _ _).mp hmem.2)
  have hall : ((s.reduce_on k).2.ineqs.all fun q => decide (q.num_vars = s.num_vars - 1)) =
      true := by
    rw [List.all_eq_true]
    intro q hq
    have := (reduce_on_wf s k hwf hk).1 q hq
    rw [reduce_on_snd_num_vars] at this
    simpa [Inequality.num_vars] using this
  rw [Checked.reduce_on, if_pos (by omega),
    checked_normalize_all k _ _ (nodup_partition s k _) hP, Option.some_bind,
    checked_normalize_all k _ _ (nodup_partition s k _) hN, Option.some_bind]
  exact if_pos hall

theorem checked_reduce_loop (i : Nat) (done : List InequalitySystem)
    (back : InequalitySystem) (hwf : WellFormed back) (hn : back.num_vars = i) :
    Checked.reduce_loop i done back = some (reduce_loop i done back) := by
  induction i generalizing done back with
  | zero => rfl
  | succ i ih =>
    rw [Checked.reduce_loop, checked_reduce_on back i hwf (by omega), Option.some_bind,
      ih _ _ (reduce_on_wf back i hwf (by omega)) (by rw [reduce_on_snd_num_vars]; omega)]
    rfl

theorem checked_get_fold (s : InequalitySystem) (vars : List ℚ) (op : ℚ → ℚ → ℚ)
    (g : ℚ → ℚ → ℚ) (l : List Nat) (acc : Option ℚ)
    (h : ∀ i ∈ l, (s.ineq i).coeffs.length = vars.length) :
    l.foldl (fun acc i => acc.bind fun m =>
        (Checked.evaluate_lhs (s.ineq i) vars).map fun lhs =>
          InequalitySystem.step_with op m (g lhs (s.ineq i).rhs)) (some acc) =
      some (l.foldl (fun acc i =>
        InequalitySystem.step_with op acc (g ((s.ineq i).evaluate_lhs vars) (s.ineq i).rhs))
        acc) := by
  induction l generalizing acc with
  | nil => rfl
  | cons i l ih =>
    rw [List.foldl_cons, List.foldl_cons, Option.some_bind,
      checked_evaluate_lhs _ _ (h i (List.mem_cons_self _ _)), Option.map_some']
    exact ih _ (fun j hj => h j (List.mem_cons_of_mem _ hj))

theorem checked_get_min (s : InequalitySystem) (l : List Nat) (vars : List ℚ)
    (h : ∀ i ∈ l, (s.ineq i).coeffs.length = vars.length) :
    Checked.get_min s l vars = some (s.get_min l vars) :=
  checked_get_fold s vars min (fun lhs rhs => rhs - lhs) l none h

theorem checked_get_max (s : InequalitySystem) (l : List Nat) (vars : List ℚ)
    (h : ∀ i ∈ l, (s.ineq i).coeffs.length = vars.length) :
    Checked.get_max s l vars = some (s.get_max l vars) :=
  checked_get_fold s vars max (fun lhs rhs => lhs - rhs) l none h

theorem checked_calc_variable (s : InequalitySystem) (k : Nat) (vars : List ℚ)
    (hwf : WellFormed s) (hv : vars.length = s.num_vars) :
    Checked.calc_variable s k vars = some (s.calc_variable k vars) := by
  have hlen : ∀ sg, ∀ i ∈ s.partition k sg, (s.ineq i).coeffs.length = vars.length := by
    intro sg i hi
    rw [hwf.length_ineq i ((mem_partition s k _ i).mp hi).1, hv]
  unfold Checked.calc_variable InequalitySystem.calc_variable
  by_cases h0 : (s.partition k Sign.Positive).length +
      (s.partition k Sign.Negative).length = 0
  · simp only [h0, if_true]
  · by_cases h1 : (s.partition k Sign.Positive).length >
        (s.partition k Sign.Negative).length
    · simp only [h0, h1, if_false, if_true]
      exact checked_get_min s _ vars (hlen _)
    · simp only [h0, h1, if_false]
      exact checked_get_max s _ vars (hlen _)

theorem checked_recover_loop (s : InequalitySystem) (hwf : WellFormed s) (i : Nat)
    (hi : i ≤ s.num_vars) (ret : List ℚ) (hret : ret.length = s.num_vars - i) :
    Checked.recover_loop (chain s.num_vars s) s.num_vars i ret =
      some (recover_loop (chain s.num_vars s) s.num_vars i ret) := by
  induction i generalizing ret with
  | zero => rfl
  | succ i ih =>
    have hwfi := chain_getD_wf s.num_vars s hwf rfl i (by omega)
    have hni := chain_getD_num_vars s.num_vars s i (by omega)
    rw [Checked.recover_loop, recover_loop,
      checked_calc_variable _ _ _ hwfi (by rw [hni, List.length_append, hret]; simp; omega),
      Option.some_bind]
    cases hc : ((chain s.num_vars s).getD i default).calc_variable
        (s.num_vars - (i + 1)) (ret ++ [0]) with
    | none => rfl
    | some v =>
      exact ih (by omega) (ret ++ [v]) (by rw [List.length_append, hret]; simp; omega)

theorem checked_recover_variables (s : InequalitySystem) (hwf : WellFormed s)
    (hT : (terminal s.num_vars s).is_valid [] = true) :
    Checked.recover_variables (chain s.num_vars s) =
      some (recover_variables (chain s.num_vars s)) := by
  obtain ⟨x, hx, hlen, hval⟩ := recover_variables_spec s hwf hT
  rw [reduce_system_eq] at hx
  have hhead : (chain s.num_vars s).headD default = stored s.num_vars s := chain_headD _ _ _
  have hloop : recover_loop (chain s.num_vars s) s.num_vars s.num_vars [] = some x := by
    have := hx
    rw [recover_variables, hhead, stored_num_vars, chain_length, Nat.add_sub_cancel] at this
    exact this
  have hwf0 : WellFormed (stored s.num_vars s) := by
    have := chain_getD_wf s.num_vars s hwf rfl 0 (Nat.zero_le _)
    rwa [chain_getD_created _ _ 0 (Nat.zero_le _), created_zero, Nat.sub_zero] at this
  rw [Checked.recover_variables, hhead, stored_num_vars, chain_length, Nat.add_sub_cancel,
    checked_recover_loop s hwf s.num_vars (le_refl _) [] (by simp), hloop, Option.some_bind,
    hx]
  simp only []
  rw [checked_sys_is_valid _ x hwf0 (by rw [stored_num_vars, hlen]), stored_is_valid, hval,
    Option.some_bind, if_pos rfl]

theorem checked_compute_counter_example (s : InequalitySystem) (hwf : WellFormed s)
    (hT : (terminal s.num_vars s).is_valid [] = false) :
    Checked.compute_counter_example (chain s.num_vars s) =
      some (compute_counter_example (chain s.num_vars s)) := by
  obtain ⟨hwfT, hnT⟩ := terminal_wf s.num_vars s hwf rfl
  rw [Checked.compute_counter_example, chain_getLastD,
    checked_find_invalid _ [] hwfT (by rw [hnT]; rfl) hT, Option.map_some',
    compute_counter_example, chain_getLastD]

theorem checked_fourier_motzkin (s : InequalitySystem) (hwf : WellFormed s) :
    Checked.fourier_motzkin s = some (fourier_motzkin s) := by
  obtain ⟨hwfT, hnT⟩ := terminal_wf s.num_vars s hwf rfl
  have hrs : Checked.reduce_system s = some (chain s.num_vars s) := by
    rw [Checked.reduce_system, checked_reduce_loop _ _ _ hwf rfl, reduce_loop_eq]
    rfl
  rw [Checked.fourier_motzkin, hrs, Option.some_bind, chain_getLastD, if_pos hnT,
    checked_sys_is_valid _ [] hwfT (by rw [hnT]; rfl), Option.some_bind, fourier_motzkin,
    reduce_system_eq, chain_getLastD]
  cases hT : (terminal s.num_vars s).is_valid [] with
  | false =>
    simp only [Bool.not_false, if_true]
    rw [checked_compute_counter_example s hwf hT]
    rfl
  | true =>
    simp only [Bool.not_true, Bool.false_eq_true, if_false]
    rw [checked_recover_variables s hwf hT]
    rfl
theorem created_wf (n : Nat) (s : InequalitySystem) (hwf : WellFormed s)
    (hn : s.num_vars = n) (i : Nat) (hi : i ≤ n) :
    WellFormed (created n s i) ∧ (created n s i).num_vars = n - i := by
  induction n generalizing s i with
  | zero =>
    have : i = 0 := by omega
    subst this
    exact ⟨hwf, hn⟩
  | succ n ih =>
    cases i with
    | zero => exact ⟨hwf, hn⟩
    | succ i =>
      have := ih _ (reduce_on_wf s n hwf (by omega))
        (by rw [reduce_on_snd_num_vars]; omega) i (by omega)
      rw [created]
      refine ⟨this.1, ?_⟩
      rw [this.2]; omega

/-- C18: no assertion reached by the solver fails on a well-formed input.  The solver
with every `assert` of the source switched on returns the result of the solver
without them, a certificate.  In detail: each `reduce_on` call of `reduce_system`
(on element `i` as it then is, for variable `N − i − 1`) passes `_num_vars > 0`,
`scalar > 0` in every `scale` call, and the size check of every new constraint; the
last chain element has no variables, so `is_valid` and `find_invalid` call
`evaluate_lhs` with a vector of the right length (the empty one); `find_invalid` finds
a violated constraint when the last element is infeasible; every `calc_variable` call
of `recover_variables` (on element `c − 1`, with `N − c + 1` known values) passes the
length check of `evaluate_lhs`; and the closing check `steps.front().is_valid(ret)`
holds when the last element is feasible. -/
theorem C18_no_assertion_fails (S : InequalitySystem) (hwf : WellFormed S) :
    Checked.fourier_motzkin S = some (fourier_motzkin S) ∧
    (∃ c, Checked.fourier_motzkin S = some (some c)) ∧
    (∀ i, i < S.num_vars →
      Checked.reduce_on (created S.num_vars S i) (S.num_vars - i - 1) =
        some ((created S.num_vars S i).reduce_on (S.num_vars - i - 1))) ∧
    ((reduce_system S).getLastD default).num_vars = 0 ∧
    Checked.sys_is_valid ((reduce_system S).getLastD default) [] =
      some (((reduce_system S).getLastD default).is_valid []) ∧
    (((reduce_system S).getLastD default).is_valid [] = false →
      Checked.find_invalid ((reduce_system S).getLastD default) [] =
        some (((reduce_system S).getLastD default).find_invalid []) ∧
      ((reduce_system S).getLastD default).find_invalid [] <
        ((reduce_system S).getLastD default).ineqs.length) ∧
    (∀ c, 1 ≤ c → c ≤ S.num_vars → ∀ known : List ℚ, known.length = S.num_vars - c + 1 →
      Checked.calc_variable ((reduce_system S).getD (c - 1) default) (S.num_vars - c) known =
        some (((reduce_system S).getD (c - 1) default).calc_variable (S.num_vars - c)
          known)) ∧
    (((reduce_system S).getLastD default).is_valid [] = true →
      ∃ ret, recover_variables (reduce_system S) = some ret ∧
        Checked.sys_is_valid ((reduce_system S).headD default) ret = some true) := by
  obtain ⟨hwfT, hnT⟩ := terminal_wf S.num_vars S hwf rfl
  have hchk := checked_fourier_motzkin S hwf
  refine ⟨hchk, ?_, ?_, ?_, ?_, ?_, ?_, ?_⟩
  · rw [hchk]
    by_cases hT : (terminal S.num_vars S).is_valid [] = true
    · obtain ⟨x, hx, _, _⟩ := recover_variables_spec S hwf hT
      refine ⟨⟨x, true⟩, ?_⟩
      simp only [fourier_motzkin, last_eq_terminal, hT, hx]
      rfl
    · have hF : (terminal S.num_vars S).is_valid [] = false := by simpa using hT
      refine ⟨⟨compute_counter_example (reduce_system S), false⟩, ?_⟩
      simp only [fourier_motzkin, last_eq_terminal, hF]
      rfl
  · intro i hi
    obtain ⟨h1, h2⟩ := created_wf S.num_vars S hwf rfl i (by omega)
    exact checked_reduce_on _ _ h1 (by rw [h2]; omega)
  · rw [last_eq_terminal]; exact hnT
  · rw [last_eq_terminal]
    exact checked_sys_is_valid _ [] hwfT (by rw [hnT]; rfl)
  · rw [last_eq_terminal]
    intro hinf
    exact ⟨checked_find_invalid _ [] hwfT (by rw [hnT]; rfl) hinf,
      (find_invalid_spec _ [] hinf).1⟩
  · intro c hc1 hc2 known hlen
    rw [reduce_system_eq]
    have hwfi := chain_getD_wf S.num_vars S hwf rfl (c - 1) (by omega)
    have hni := chain_getD_num_vars S.num_vars S (c - 1) (by omega)
    exact checked_calc_variable _ _ _ hwfi (by rw [hni, hlen]; omega)
  · rw [last_eq_terminal]
    intro hT
    obtain ⟨x, hx, hlen, hval⟩ := recover_variables_spec S hwf hT
    refine ⟨x, hx, ?_⟩
    have hwf0 : WellFormed (stored S.num_vars S) := by
      have := chain_getD_wf S.num_vars S hwf rfl 0 (Nat.zero_le _)
      rwa [chain_getD_created _ _ 0 (Nat.zero_le _), created_zero, Nat.sub_zero] at this
    rw [reduce_system_eq, chain_headD,
      checked_sys_is_valid _ x hwf0 (by rw [stored_num_vars, hlen]), stored_is_valid, hval]

theorem C18_no_assertion_fails_witness :
    WellFormed scenarioB ∧
    Checked.fourier_motzkin scenarioB = some (fourier_motzkin scenarioB) ∧
    (∃ c, Checked.fourier_motzkin scenarioB = some (some c)) ∧
    0 < scenarioB.num_vars ∧
    Checked.reduce_on (created scenarioB.num_vars scenarioB 0) (scenarioB.num_vars - 0 - 1) =
      some ((created scenarioB.num_vars scenarioB 0).reduce_on (scenarioB.num_vars - 0 - 1)) ∧
    ((reduce_system scenarioB).getLastD default).is_valid [] = true ∧
    ∃ ret, recover_variables (reduce_system scenarioB) = some ret ∧
      Checked.sys_is_valid ((reduce_system scenarioB).headD default) ret = some true :=
  ⟨by decide, (C18_no_assertion_fails scenarioB (by decide)).1,
    (C18_no_assertion_fails scenarioB (by decide)).2.1, by decide,
    (C18_no_assertion_fails scenarioB (by decide)).2.2.1 0 (by decide), by decide!,
    (C18_no_assertion_fails scenarioB (by decide)).2.2.2.2.2.2.2 (by decide!)⟩


/-! ## Properties that fail over `double` -/

end FourierMotzkin
